import Mathlib

/-!
# Verification of the mosh-wasm SSP carrier core

A shallow embedding in Lean 4 of the Rust crates `mosh-crypto`,
`mosh-transport`, `mosh-proto`, `mosh-ssp`, `mosh-stream` and the
`mosh-wasm` client facade, together with proofs and refutations of the
specification's claims about them.

Conventions of the embedding:
* Byte strings are `List Nat` with every element below 256 (the encoders
  only produce such bytes; the decoders are total on `List Nat`).
* Machine integers (`u16`, `u32`, `u64`) are `Nat` with an explicit
  `% 2 ^ w` wherever the Rust code can wrap (`wrapping_add`, `+=` on
  release builds, `as u16` casts).
* The AES-128-OCB3 cipher is an external crate; it is abstracted as a
  pair of functions `AeadSeal` / `AeadOpen` (one pair per key and cipher
  instance).  Theorems that need the cipher's functional correctness take
  it as an explicit hypothesis (decryption inverts encryption, the tag
  adds 16 bytes).
* `f64` fields (`srtt_ms`, `rttvar_ms`) are modelled by `ℚ` with exact
  arithmetic; the claims proved about them depend only on the call
  structure of the estimator and on the final integer clamp, not on
  rounding behaviour.
* Fallible Rust functions return `Except`; `&mut self` methods become
  explicit state passing.
-/

namespace Mosh

/-- Byte strings on the wire: lists of byte values. -/
abbrev Bytes := List Nat

/-! ## Big-endian integer codecs (`to_be_bytes` / `from_be_bytes`) -/

/-- `n.to_be_bytes` for a `w`-byte machine integer: big-endian byte list. -/
def toBeBytes (w : Nat) (n : Nat) : Bytes :=
  match w with
  | 0 => []
  | w' + 1 => (n / 256 ^ w') % 256 :: toBeBytes w' n

/-- `from_be_bytes`: big-endian byte list to natural number. -/
def fromBeBytes : Bytes → Nat
  | [] => 0
  | b :: rest => b * 256 ^ rest.length + fromBeBytes rest

/-! ## mosh-crypto: direction tag, nonce, session (`mosh-crypto/src/*.rs`) -/

/-- Packet direction; bit 63 of the direction-tagged sequence. -/
inductive Direction where
  | ToServer
  | ToClient
deriving DecidableEq, Repr

/-- `Direction::apply_to_seq`: set/clear bit 63 of a `u64` sequence.
On `u64` values `seq & !(1 << 63)` is `seq % 2^63` and `seq | (1 << 63)`
is `2^63 + seq % 2^63`. -/
def Direction.apply_to_seq (d : Direction) (seq : Nat) : Nat :=
  match d with
  | .ToServer => seq % 2 ^ 63
  | .ToClient => 2 ^ 63 + seq % 2 ^ 63

/-- `Direction::from_seq`: read bit 63 (`direction_seq >> 63` on `u64`). -/
def Direction.from_seq (direction_seq : Nat) : Direction :=
  if direction_seq / 2 ^ 63 = 0 then .ToServer else .ToClient

/-- `MoshNonce::new`: 12-byte nonce, 4 zero bytes then the sequence in BE. -/
def MoshNonce.new (seq : Nat) : Bytes :=
  List.replicate 4 0 ++ toBeBytes 8 seq

/-- `MoshNonce::from_nonce_tail`: rebuild the nonce from its trailing 8 bytes. -/
def MoshNonce.from_nonce_tail (tail : Bytes) : Bytes :=
  List.replicate 4 0 ++ tail

/-- `MoshNonce::from_udp_payload_prefix` (leading 8 bytes of the datagram). -/
def MoshNonce.from_udp_payload_head (bytes : Bytes) : Option Bytes :=
  if bytes.length < 8 then none
  else some (MoshNonce.from_nonce_tail (bytes.take 8))

/-- `MoshNonce::tail_bytes`: the 8 transmitted bytes of the nonce. -/
def MoshNonce.tail_bytes (nonce : Bytes) : Bytes := nonce.drop 4

/-- `CryptoError` (`mosh-crypto/src/error.rs`). -/
inductive CryptoError where
  | InvalidKeyLength
  | InvalidBase64
  | EncryptionFailed
  | DecryptionFailed
  | ReplayAttack
  | PacketTooShort
deriving DecidableEq, Repr

/-- The AEAD encrypt half of the external AES-128-OCB3 cipher for one key:
nonce and plaintext to ciphertext-with-tag (`None` = library error). -/
abbrev AeadSeal := Bytes → Bytes → Option Bytes

/-- The AEAD decrypt half for one key: nonce and ciphertext-with-tag to
plaintext (`None` = authentication failure). -/
abbrev AeadOpen := Bytes → Bytes → Option Bytes

/-- `CryptoSession` state (the cipher itself lives in the `AeadSeal` /
`AeadOpen` pair passed to the operations). -/
structure CryptoSession where
  send_seq : Nat
  recv_seq : Nat
deriving DecidableEq, Repr

/-- `CryptoSession::from_key`: fresh session, both counters zero. -/
def CryptoSession.from_key : CryptoSession := ⟨0, 0⟩

/-- Decoded packet contents (`DecryptedPacket`). -/
structure DecryptedPacket where
  seq : Nat
  direction : Direction
  timestamp : Nat
  timestamp_reply : Nat
  payload : Bytes
deriving DecidableEq, Repr

/-- `CryptoSession::encrypt_packet`.  The send counter is advanced
(`self.send_seq += 1`, wrapping on `u64`) before the cipher runs, so it
advances even when sealing fails. -/
def CryptoSession.encrypt_packet (aeadEnc : AeadSeal) (s : CryptoSession)
    (direction : Direction) (timestamp timestamp_reply : Nat)
    (payload : Bytes) : Except CryptoError Bytes × CryptoSession :=
  let seq := s.send_seq
  let s' : CryptoSession := { s with send_seq := (s.send_seq + 1) % 2 ^ 64 }
  let direction_seq := direction.apply_to_seq seq
  let nonce := MoshNonce.new direction_seq
  let plaintext :=
    toBeBytes 8 direction_seq ++ toBeBytes 2 (timestamp % 2 ^ 16)
      ++ toBeBytes 2 (timestamp_reply % 2 ^ 16) ++ payload
  match aeadEnc nonce plaintext with
  | none => (.error .EncryptionFailed, s')
  | some ciphertext => (.ok (MoshNonce.tail_bytes nonce ++ ciphertext), s')

/-- `CryptoSession::decrypt_packet`. -/
def CryptoSession.decrypt_packet (opn : AeadOpen) (s : CryptoSession)
    (packet : Bytes) : Except CryptoError DecryptedPacket × CryptoSession :=
  if packet.length < 24 then (.error .PacketTooShort, s)
  else
    match MoshNonce.from_udp_payload_head packet with
    | none => (.error .PacketTooShort, s)
    | some nonce =>
      let ciphertext := packet.drop 8
      match opn nonce ciphertext with
      | none => (.error .DecryptionFailed, s)
      | some plaintext =>
        if plaintext.length < 12 then (.error .DecryptionFailed, s)
        else
          let direction_seq := fromBeBytes (plaintext.take 8)
          let direction := Direction.from_seq direction_seq
          let seq := direction_seq % 2 ^ 63
          let timestamp := fromBeBytes ((plaintext.drop 8).take 2)
          let timestamp_reply := fromBeBytes ((plaintext.drop 10).take 2)
          let payload := plaintext.drop 12
          (.ok ⟨seq, direction, timestamp, timestamp_reply, payload⟩,
            { s with recv_seq := seq })

/-! ## mosh-transport: fragments (`mosh-transport/src/fragment.rs`) -/

/-- `TransportError` (`mosh-transport/src/error.rs`). -/
inductive TransportError where
  | TooShort
  | InvalidFragmentFormat
  | AssemblyError
deriving DecidableEq, Repr

/-- A wire fragment of one Instruction. -/
structure Fragment where
  instruction_id : Nat
  fragment_num : Nat
  is_final : Bool
  payload : Bytes
deriving DecidableEq, Repr

/-- `Fragment::from_bytes`. -/
def Fragment.from_bytes (bytes : Bytes) : Except TransportError Fragment :=
  if bytes.length < 10 then .error .TooShort
  else
    let instruction_id := fromBeBytes (bytes.take 8)
    let frag_word := fromBeBytes ((bytes.drop 8).take 2)
    .ok ⟨instruction_id, frag_word % 2 ^ 15, decide (frag_word / 2 ^ 15 = 1),
      bytes.drop 10⟩

/-- `Fragment::to_bytes`.  On a `u16` word, `fragment_num | 0x8000` is
`fragment_num % 2^15 + 2^15`, and `fragment_num | 0` is `fragment_num`;
the field is stored as `u16`, hence the `% 2^16`. -/
def Fragment.to_bytes (f : Fragment) : Bytes :=
  let w := f.fragment_num % 2 ^ 16
  let frag_word := if f.is_final then w % 2 ^ 15 + 2 ^ 15 else w
  toBeBytes 8 (f.instruction_id % 2 ^ 64) ++ toBeBytes 2 frag_word ++ f.payload


/-- One fuelled step list for `<[u8]>::chunks`: `chunksGo` cuts the list
into pieces of `mtu` bytes; the fuel (the list length at the top call)
only serves structural termination and never runs out for `0 < mtu`. -/
def chunksGo (mtu : Nat) : Nat → Bytes → List Bytes
  | _, [] => []
  | 0, _ :: _ => []
  | fuel + 1, b :: rest => (b :: rest).take mtu :: chunksGo mtu fuel ((b :: rest).drop mtu)

/-- `instruction_bytes.chunks(app_payload_mtu)` as a list of chunks. -/
def chunksOf (mtu : Nat) (l : Bytes) : List Bytes := chunksGo mtu l.length l

/-- `Fragmenter` state. -/
structure Fragmenter where
  next_instruction_id : Nat
  app_payload_mtu : Nat
deriving DecidableEq, Repr

/-- `Fragmenter::new`: ids start at 1. -/
def Fragmenter.new (app_mtu : Nat) : Fragmenter := ⟨1, app_mtu⟩

/-- `Fragmenter::make_fragments`: allocate one id (wrapping `u64`
increment) and cut the message into MTU-sized fragments; an empty message
yields a single empty final fragment.  `i as u16` is `i % 2^16`. -/
def Fragmenter.make_fragments (fr : Fragmenter) (instruction_bytes : Bytes) :
    List Fragment × Fragmenter :=
  let id := fr.next_instruction_id
  let fr' : Fragmenter :=
    { fr with next_instruction_id := (fr.next_instruction_id + 1) % 2 ^ 64 }
  if instruction_bytes.isEmpty then
    ([⟨id, 0, true, []⟩], fr')
  else
    let chunks := chunksOf fr.app_payload_mtu instruction_bytes
    let num_chunks := chunks.length
    (chunks.enum.map
      (fun ic => ⟨id, ic.1 % 2 ^ 16, decide (ic.1 = num_chunks - 1), ic.2⟩),
      fr')

/-- `FragmentAssembly` state; the `BTreeMap<u16, Fragment>` becomes a map
`Nat → Option Fragment` (insert overwrites). -/
structure FragmentAssembly where
  current_id : Option Nat
  arrived : Nat → Option Fragment
  final_fragment_num : Option Nat

/-- `FragmentAssembly::new`. -/
def FragmentAssembly.new : FragmentAssembly := ⟨none, fun _ => none, none⟩

/-- `FragmentAssembly::reset_if_new_id`. -/
def FragmentAssembly.reset_if_new_id (a : FragmentAssembly) (id : Nat) :
    Bool × FragmentAssembly :=
  match a.current_id with
  | some current =>
    if current = id then (false, a) else (true, ⟨some id, fun _ => none, none⟩)
  | none => (true, ⟨some id, fun _ => none, none⟩)

/-- `FragmentAssembly::try_assemble`. -/
def FragmentAssembly.try_assemble (a : FragmentAssembly) : Option Bytes :=
  match a.final_fragment_num with
  | none => none
  | some final_num =>
    if (List.range (final_num + 1)).all (fun n => (a.arrived n).isSome) then
      some ((List.range (final_num + 1)).map
        (fun n => match a.arrived n with | some f => f.payload | none => [])).flatten
    else none

/-- `FragmentAssembly::add_fragment`. -/
def FragmentAssembly.add_fragment (a : FragmentAssembly) (frag : Fragment) :
    Option Bytes × FragmentAssembly :=
  let a₁ := (a.reset_if_new_id frag.instruction_id).2
  let a₂ := if a₁.current_id.isNone
    then { a₁ with current_id := some frag.instruction_id } else a₁
  let a₃ := if frag.is_final
    then { a₂ with final_fragment_num := some frag.fragment_num } else a₂
  let a₄ : FragmentAssembly := { a₃ with
    arrived := fun j => if j = frag.fragment_num then some frag else a₃.arrived j }
  (a₄.try_assemble, a₄)

/-- Feed a list of fragments one by one, collecting every `add_fragment`
return value in order. -/
def FragmentAssembly.feed_all (a : FragmentAssembly) :
    List Fragment → List (Option Bytes) × FragmentAssembly
  | [] => ([], a)
  | f :: rest =>
    let r := a.add_fragment f
    let rr := r.2.feed_all rest
    (r.1 :: rr.1, rr.2)

/-! ## mosh-proto: the `Instruction` message (`mosh-proto/src/lib.rs`).

The struct and the helpers `new_send`, `new_ack`, the `*_or_zero`
accessors and `has_diff` are translated from `mosh-proto/src/lib.rs`.
The wire codec itself is generated by `prost` from
`proto/transportinstruction.proto`, which is not part of the sources;
the codec below is modelled from the spec. -/

/-- `ProtoError` (`mosh-proto/src/error.rs`); the `prost::DecodeError`
payload carries only a message and is dropped. -/
inductive ProtoError where
  | DecodeFailed
  | InvalidProtocolVersion (v : Nat)
deriving DecidableEq, Repr

/-- `MOSH_PROTOCOL_VERSION`. -/
def MOSH_PROTOCOL_VERSION : Nat := 2

/-- The `Instruction` message: optional `uint32` / `uint64` / `bytes`
fields in the mosh protobuf-2 layout. -/
structure Instruction where
  protocol_version : Option Nat
  old_num : Option Nat
  new_num : Option Nat
  ack_num : Option Nat
  throwaway_num : Option Nat
  diff : Option Bytes
  chaff : Option Bytes
deriving DecidableEq, Repr

/-- `Instruction::new_send`. -/
def Instruction.new_send (old_num new_num ack_num throwaway_num : Nat)
    (diff : Bytes) : Instruction :=
  ⟨some MOSH_PROTOCOL_VERSION, some old_num, some new_num, some ack_num,
    some throwaway_num, if diff.isEmpty then none else some diff, none⟩

/-- `Instruction::new_ack`. -/
def Instruction.new_ack (ack_num throwaway_num : Nat) : Instruction :=
  ⟨some MOSH_PROTOCOL_VERSION, some 0, some 0, some ack_num,
    some throwaway_num, none, none⟩

/-- `Instruction::old_num_or_zero`. -/
def Instruction.old_num_or_zero (i : Instruction) : Nat := i.old_num.getD 0

/-- `Instruction::new_num_or_zero`. -/
def Instruction.new_num_or_zero (i : Instruction) : Nat := i.new_num.getD 0

/-- `Instruction::ack_num_or_zero`. -/
def Instruction.ack_num_or_zero (i : Instruction) : Nat := i.ack_num.getD 0

/-- `Instruction::throwaway_num_or_zero`. -/
def Instruction.throwaway_num_or_zero (i : Instruction) : Nat :=
  i.throwaway_num.getD 0

/-- `Instruction::diff_bytes`. -/
def Instruction.diff_bytes (i : Instruction) : Bytes := i.diff.getD []

/-- `Instruction::has_diff`. -/
def Instruction.has_diff (i : Instruction) : Bool :=
  match i.diff with
  | some d => !d.isEmpty
  | none => false

/-- The all-absent `Instruction` (decoder start state). -/
def Instruction.mkDefault : Instruction := ⟨none, none, none, none, none, none, none⟩

/-- Modelled from the spec: protobuf base-128 varint encoding ("all
integers are varints").  The fuel of 10 bytes covers every value below
`2^70`, in particular every `u64`. -/
def varintGo : Nat → Nat → Bytes
  | 0, n => [n % 128]
  | fuel + 1, n => if n < 128 then [n] else (n % 128 + 128) :: varintGo fuel (n / 128)

/-- Modelled from the spec: varint encoding of one integer. -/
def varintEnc (n : Nat) : Bytes := varintGo 10 n

/-- Modelled from the spec: varint decoding; returns the value and the
rest of the input. -/
def varintDec : Bytes → Option (Nat × Bytes)
  | [] => none
  | b :: rest =>
    if b < 128 then some (b, rest)
    else
      match varintDec rest with
      | some (v, rest') => some (v * 128 + (b - 128), rest')
      | none => none

/-- Modelled from the spec: the prost encoder for `Instruction`
(`encode_to_bytes`).  Present fields are written in ascending field
order with single-byte tags `(field << 3) | wire`; integers are varints
(fields 1-5), `diff` and `chaff` are length-delimited (fields 6, 7). -/
def Instruction.encode_to_bytes (i : Instruction) : Bytes :=
  (match i.protocol_version with
    | some v => 8 :: varintEnc (v % 2 ^ 32) | none => []) ++
  (match i.old_num with
    | some v => 16 :: varintEnc (v % 2 ^ 64) | none => []) ++
  (match i.new_num with
    | some v => 24 :: varintEnc (v % 2 ^ 64) | none => []) ++
  (match i.ack_num with
    | some v => 32 :: varintEnc (v % 2 ^ 64) | none => []) ++
  (match i.throwaway_num with
    | some v => 40 :: varintEnc (v % 2 ^ 64) | none => []) ++
  (match i.diff with
    | some d => 50 :: (varintEnc d.length ++ d) | none => []) ++
  (match i.chaff with
    | some cf => 58 :: (varintEnc cf.length ++ cf) | none => [])

/-- Modelled from the spec: merge one varint field into the accumulator
(`uint32` for field 1, `uint64` for fields 2-5, unknown fields skipped). -/
def setVarintField (acc : Instruction) (field v : Nat) : Instruction :=
  match field with
  | 1 => { acc with protocol_version := some (v % 2 ^ 32) }
  | 2 => { acc with old_num := some (v % 2 ^ 64) }
  | 3 => { acc with new_num := some (v % 2 ^ 64) }
  | 4 => { acc with ack_num := some (v % 2 ^ 64) }
  | 5 => { acc with throwaway_num := some (v % 2 ^ 64) }
  | _ => acc

/-- Modelled from the spec: merge one length-delimited field. -/
def setBytesField (acc : Instruction) (field : Nat) (d : Bytes) : Instruction :=
  match field with
  | 6 => { acc with diff := some d }
  | 7 => { acc with chaff := some d }
  | _ => acc

/-- Modelled from the spec: the prost field-decoding loop.  Each
iteration reads a tag byte, dispatches on the wire type (varint,
length-delimited, 64-bit, 32-bit; anything else is malformed) and merges
known fields.  The fuel (input length at the top call) only serves
structural termination; every iteration consumes at least one byte. -/
def decodeFields : Nat → Instruction → Bytes → Option Instruction
  | _, acc, [] => some acc
  | 0, _, _ :: _ => none
  | fuel + 1, acc, tag :: rest =>
    let field := tag / 8
    let wire := tag % 8
    if wire = 0 then
      match varintDec rest with
      | some (v, rest') => decodeFields fuel (setVarintField acc field v) rest'
      | none => none
    else if wire = 2 then
      match varintDec rest with
      | some (len, rest') =>
        if len ≤ rest'.length then
          decodeFields fuel (setBytesField acc field (rest'.take len))
            (rest'.drop len)
        else none
      | none => none
    else if wire = 1 then
      if 8 ≤ rest.length then decodeFields fuel acc (rest.drop 8) else none
    else if wire = 5 then
      if 4 ≤ rest.length then decodeFields fuel acc (rest.drop 4) else none
    else none

/-- `Instruction::decode_from_bytes`: decode (modelled from the spec),
then reject a present protocol version different from 2. -/
def Instruction.decode_from_bytes (bytes : Bytes) : Except ProtoError Instruction :=
  match decodeFields bytes.length Instruction.mkDefault bytes with
  | none => .error .DecodeFailed
  | some instr =>
    match instr.protocol_version with
    | some ver =>
      if ver ≠ MOSH_PROTOCOL_VERSION then .error (.InvalidProtocolVersion ver)
      else .ok instr
    | none => .ok instr

/-! ## mosh-ssp: the SSP session (`mosh-ssp/src/session.rs`, `lib.rs`) -/

/-- `HEARTBEAT_INTERVAL_MS`. -/
def HEARTBEAT_INTERVAL_MS : Nat := 3000

/-- `RTO_MIN_MS`. -/
def RTO_MIN_MS : Nat := 50

/-- `RTO_MAX_MS`. -/
def RTO_MAX_MS : Nat := 1000

/-- `RTO_INITIAL_MS`. -/
def RTO_INITIAL_MS : Nat := 1000

/-- `PendingInstruction`: a sent, not yet acknowledged Instruction. -/
structure PendingInstruction where
  num : Nat
  payload : Bytes
  sent_at_ms : Nat
  retransmit_count : Nat
deriving DecidableEq, Repr

/-- `SendState`. -/
structure SendState where
  next_send_num : Nat
  last_acked : Nat
  pending : List PendingInstruction
  outgoing_diff : Bytes
  last_send_ms : Nat
deriving DecidableEq, Repr

/-- `RecvState` (the two `_last_timestamp*` fields are stored, never read). -/
structure RecvState where
  last_recv_num : Nat
  throwaway_num : Nat
  last_recv_ms : Nat
  last_timestamp : Nat
  last_timestamp_recv_ms : Nat
deriving DecidableEq, Repr

/-- `SspSession`; the two `f64` estimator fields are modelled by `ℚ`. -/
structure SspSession where
  send : SendState
  recv : RecvState
  srtt_ms : ℚ
  rttvar_ms : ℚ
  rto_ms : Nat
deriving DecidableEq, Repr

/-- `SspSession::new`. -/
def SspSession.new : SspSession :=
  { send := { next_send_num := 1, last_acked := 0, pending := [],
              outgoing_diff := [], last_send_ms := 0 },
    recv := { last_recv_num := 0, throwaway_num := 0, last_recv_ms := 0,
              last_timestamp := 2 ^ 16 - 1, last_timestamp_recv_ms := 0 },
    srtt_ms := 0, rttvar_ms := 0, rto_ms := RTO_INITIAL_MS }

/-- `SspSession::push_payload`. -/
def SspSession.push_payload (s : SspSession) (diff : Bytes) : SspSession :=
  { s with send.outgoing_diff := s.send.outgoing_diff ++ diff }

/-- `rto as u64`: the Rust `f64 → u64` cast truncates toward zero and
saturates (negative values to 0, huge values to `u64::MAX`). -/
def f64_to_u64 (q : ℚ) : Nat := min (Int.toNat q.floor) (2 ^ 64 - 1)

/-- `u64::clamp`. -/
def clampNat (n lo hi : Nat) : Nat := max lo (min n hi)

/-- `SspSession::update_rtt` (RFC 6298, exact-rational model of the
`f64` arithmetic). -/
def SspSession.update_rtt (s : SspSession) (rtt_sample_ms : Nat) : SspSession :=
  let rtt : ℚ := rtt_sample_ms
  let p : ℚ × ℚ :=
    if s.srtt_ms = 0 then (rtt, rtt / 2)
    else
      ((1 - (1 / 8 : ℚ)) * s.srtt_ms + (1 / 8 : ℚ) * rtt,
        (1 - (1 / 4 : ℚ)) * s.rttvar_ms + (1 / 4 : ℚ) * |s.srtt_ms - rtt|)
  let rto : ℚ := p.1 + max (4 * p.2) 50
  { s with srtt_ms := p.1, rttvar_ms := p.2,
           rto_ms := clampNat (f64_to_u64 rto) RTO_MIN_MS RTO_MAX_MS }

/-- `SspSession::make_send_instruction`. -/
def SspSession.make_send_instruction (s : SspSession) (diff : Bytes)
    (_now_ms : Nat) : Instruction × SspSession :=
  let old_num := s.send.last_acked
  let new_num := s.send.next_send_num
  let s' : SspSession :=
    { s with send.next_send_num := (s.send.next_send_num + 1) % 2 ^ 64 }
  (Instruction.new_send old_num new_num s.recv.last_recv_num
    s.recv.throwaway_num diff, s')

/-- `SspSession::enqueue_pending`. -/
def SspSession.enqueue_pending (s : SspSession) (num : Nat) (payload : Bytes)
    (now_ms : Nat) : SspSession :=
  { s with send.pending := s.send.pending ++ [⟨num, payload, now_ms, 0⟩],
           send.last_send_ms := now_ms }

/-- `SspSession::make_ack`. -/
def SspSession.make_ack (s : SspSession) (_now_ms : Nat) : Instruction :=
  Instruction.new_ack s.recv.last_recv_num s.recv.throwaway_num

/-- `SspSession::needs_heartbeat` (`saturating_sub` is `Nat` subtraction). -/
def SspSession.needs_heartbeat (s : SspSession) (now_ms : Nat) : Bool :=
  decide (HEARTBEAT_INTERVAL_MS ≤ now_ms - s.send.last_send_ms)

/-- The `while let Some(front)` drain loop inside
`SspSession::process_ack`: pop acknowledged records from the front and
feed an RTT sample for each popped record that was never retransmitted. -/
def SspSession.process_ack_loop (s : SspSession) (ack_num now_ms : Nat) :
    List PendingInstruction → SspSession × List PendingInstruction
  | [] => (s, [])
  | p :: rest =>
    if p.num ≤ ack_num then
      let s' := if p.retransmit_count = 0
        then s.update_rtt (now_ms - p.sent_at_ms) else s
      s'.process_ack_loop ack_num now_ms rest
    else (s, p :: rest)

/-- `SspSession::process_ack`. -/
def SspSession.process_ack (s : SspSession) (ack_num now_ms : Nat) : SspSession :=
  if ack_num ≤ s.send.last_acked then s
  else
    let r := s.process_ack_loop ack_num now_ms s.send.pending
    { r.1 with send.pending := r.2, send.last_acked := ack_num }

/-- `SspSession::recv_instruction`. -/
def SspSession.recv_instruction (s : SspSession) (instr : Instruction)
    (now_ms : Nat) : Option Bytes × SspSession :=
  let new_num := instr.new_num_or_zero
  let ack_num := instr.ack_num_or_zero
  let throwaway_num := instr.throwaway_num_or_zero
  let s₁ := s.process_ack ack_num now_ms
  let s₂ := if s₁.recv.throwaway_num < throwaway_num
    then { s₁ with recv.throwaway_num := throwaway_num } else s₁
  let s₃ : SspSession := { s₂ with recv.last_recv_ms := now_ms }
  if new_num = 0 then (none, s₃)
  else if new_num ≤ s₃.recv.last_recv_num then (none, s₃)
  else
    let s₄ : SspSession := { s₃ with recv.last_recv_num := new_num }
    if instr.has_diff then (some instr.diff_bytes, s₄) else (none, s₄)

/-- `SspSession::tick`: send a fresh Instruction if payload is waiting,
retransmit every pending record whose RTO elapsed (`retransmit_count`
is `u32`), and fall back to a heartbeat when nothing was sent. -/
def SspSession.tick (s : SspSession) (now_ms : Nat) : List Bytes × SspSession :=
  let r1 : List Bytes × SspSession :=
    if s.send.outgoing_diff.isEmpty then ([], s)
    else
      let diff := s.send.outgoing_diff
      let s₀ : SspSession := { s with send.outgoing_diff := [] }
      let ir := s₀.make_send_instruction diff now_ms
      let bytes := ir.1.encode_to_bytes
      let s₂ := ir.2.enqueue_pending ir.1.new_num_or_zero bytes now_ms
      ([bytes], s₂)
  let s₁ := r1.2
  let rto := s₁.rto_ms
  let retx := (s₁.send.pending.filter
    (fun p => rto ≤ now_ms - p.sent_at_ms)).map (fun p => p.payload)
  let pending' := s₁.send.pending.map (fun p =>
    if rto ≤ now_ms - p.sent_at_ms then
      { p with sent_at_ms := now_ms,
               retransmit_count := (p.retransmit_count + 1) % 2 ^ 32 }
    else p)
  let to_send := r1.1 ++ retx
  let s₂ : SspSession := { s₁ with send.pending := pending' }
  if to_send.isEmpty && s₂.needs_heartbeat now_ms then
    (to_send ++ [(s₂.make_ack now_ms).encode_to_bytes],
      { s₂ with send.last_send_ms := now_ms })
  else (to_send, s₂)

/-! ## mosh-stream: the byte-stream channel (`mosh-stream/src/channel.rs`) -/

/-- `StreamChannel`. -/
structure StreamChannel where
  recv_buffer : Bytes
  send_buffer : Bytes
  total_received : Nat
  total_sent : Nat
deriving DecidableEq, Repr

/-- `StreamChannel::new`. -/
def StreamChannel.new : StreamChannel := ⟨[], [], 0, 0⟩

/-- `StreamChannel::write`. -/
def StreamChannel.write (c : StreamChannel) (data : Bytes) : StreamChannel :=
  { c with send_buffer := c.send_buffer ++ data }

/-- `StreamChannel::take_pending_diff`. -/
def StreamChannel.take_pending_diff (c : StreamChannel) : Bytes × StreamChannel :=
  (c.send_buffer,
    { c with send_buffer := [],
             total_sent := (c.total_sent + c.send_buffer.length) % 2 ^ 64 })

/-- `StreamChannel::apply_diff`. -/
def StreamChannel.apply_diff (c : StreamChannel) (diff : Bytes) : StreamChannel :=
  { c with recv_buffer := c.recv_buffer ++ diff,
           total_received := (c.total_received + diff.length) % 2 ^ 64 }

/-- `StreamChannel::read_available`. -/
def StreamChannel.read_available (c : StreamChannel) : Bytes × StreamChannel :=
  (c.recv_buffer, { c with recv_buffer := [] })

/-- `StreamChannel::has_pending_read`. -/
def StreamChannel.has_pending_read (c : StreamChannel) : Bool :=
  !c.recv_buffer.isEmpty

/-! ## mosh-wasm: the client facade (`mosh-wasm/src/client.rs`) -/

/-- The distinct `JsError` sites of the facade. -/
inductive ClientError where
  | decryptError (e : CryptoError)
  | fragmentError (e : TransportError)
  | protoError (e : ProtoError)
  | encryptError (e : CryptoError)
deriving DecidableEq, Repr

/-- `DEFAULT_MTU`. -/
def DEFAULT_MTU : Nat := 500

/-- `CRYPTO_OVERHEAD`. -/
def CRYPTO_OVERHEAD : Nat := 46

/-- `MoshClient` state. -/
structure MoshClient where
  crypto : CryptoSession
  fragmenter : Fragmenter
  assembly : FragmentAssembly
  ssp : SspSession
  stream : StreamChannel
  last_remote_timestamp : Nat

/-- `MoshClient::new` (key decoding is outside the model; the key lives
in the AEAD pair).  `saturating_sub` is `Nat` subtraction. -/
def MoshClient.new (mtu : Option Nat) : MoshClient :=
  let effective_mtu := mtu.getD DEFAULT_MTU
  let app_payload_mtu := max (effective_mtu - CRYPTO_OVERHEAD) 64
  { crypto := CryptoSession.from_key,
    fragmenter := Fragmenter.new app_payload_mtu,
    assembly := FragmentAssembly.new,
    ssp := SspSession.new,
    stream := StreamChannel.new,
    last_remote_timestamp := 2 ^ 16 - 1 }

/-- `MoshClient::recv_udp_packet`: decrypt, parse the fragment header,
reassemble, decode, run the SSP receive path and return the readable
stream bytes.  Every failing stage propagates its error (`map_err` +
`?` in the source). -/
def MoshClient.recv_udp_packet (opn : AeadOpen) (c : MoshClient)
    (udp_bytes : Bytes) (now_ms : Nat) : Except ClientError Bytes × MoshClient :=
  match c.crypto.decrypt_packet opn udp_bytes with
  | (.error e, crypto') => (.error (.decryptError e), { c with crypto := crypto' })
  | (.ok decrypted, crypto') =>
    let c₁ : MoshClient :=
      { c with crypto := crypto', last_remote_timestamp := decrypted.timestamp }
    match Fragment.from_bytes decrypted.payload with
    | .error e => (.error (.fragmentError e), c₁)
    | .ok frag =>
      match c₁.assembly.add_fragment frag with
      | (none, asm') => (.ok [], { c₁ with assembly := asm' })
      | (some instruction_bytes, asm') =>
        let c₂ : MoshClient := { c₁ with assembly := asm' }
        match Instruction.decode_from_bytes instruction_bytes with
        | .error e => (.error (.protoError e), c₂)
        | .ok instr =>
          let pr := c₂.ssp.recv_instruction instr now_ms
          let c₃ : MoshClient := { c₂ with ssp := pr.2 }
          let c₄ : MoshClient :=
            match pr.1 with
            | some data => { c₃ with stream := c₃.stream.apply_diff data }
            | none => c₃
          if c₄.stream.has_pending_read then
            let rr := c₄.stream.read_available
            (.ok rr.1, { c₄ with stream := rr.2 })
          else (.ok [], c₄)

/-- The `for frag in fragments` encryption loop inside
`MoshClient::encrypt_and_fragment`; `?` aborts on the first error. -/
def encryptFragments (aeadEnc : AeadSeal) (crypto : CryptoSession)
    (timestamp timestamp_reply : Nat) :
    List Fragment → Except CryptoError (List Bytes) × CryptoSession
  | [] => (.ok [], crypto)
  | f :: rest =>
    match crypto.encrypt_packet aeadEnc .ToServer timestamp timestamp_reply
      f.to_bytes with
    | (.error e, crypto') => (.error e, crypto')
    | (.ok pkt, crypto') =>
      match encryptFragments aeadEnc crypto' timestamp timestamp_reply rest with
      | (.ok pkts, crypto'') => (.ok (pkt :: pkts), crypto'')
      | (.error e, crypto'') => (.error e, crypto'')

/-- `MoshClient::encrypt_and_fragment`.  `Timestamp16::now_from_ms` is
`now_ms % 2^16`. -/
def MoshClient.encrypt_and_fragment (aeadEnc : AeadSeal) (c : MoshClient)
    (instruction_bytes : Bytes) (now_ms : Nat) :
    Except ClientError (List Bytes) × MoshClient :=
  let fr := c.fragmenter.make_fragments instruction_bytes
  let timestamp := now_ms % 2 ^ 16
  let timestamp_reply := c.last_remote_timestamp
  let c₁ : MoshClient := { c with fragmenter := fr.2 }
  match encryptFragments aeadEnc c₁.crypto timestamp timestamp_reply fr.1 with
  | (.error e, crypto') => (.error (.encryptError e), { c₁ with crypto := crypto' })
  | (.ok pkts, crypto') => (.ok pkts, { c₁ with crypto := crypto' })

/-- The `for instr_bytes in instructions` loop shared by
`MoshClient::tick` and `MoshClient::flush_to_udp`. -/
def sendInstructions (aeadEnc : AeadSeal) (c : MoshClient) (now_ms : Nat) :
    List Bytes → Except ClientError (List Bytes) × MoshClient
  | [] => (.ok [], c)
  | b :: rest =>
    match c.encrypt_and_fragment aeadEnc b now_ms with
    | (.error e, c') => (.error e, c')
    | (.ok pkts, c') =>
      match sendInstructions aeadEnc c' now_ms rest with
      | (.ok more, c'') => (.ok (pkts ++ more), c'')
      | (.error e, c'') => (.error e, c'')

/-- `MoshClient::flush_to_udp` (also the body of `MoshClient::tick`):
drain the stream buffer into the SSP session, tick it, and turn each
emitted Instruction into encrypted datagrams. -/
def MoshClient.flush_to_udp (aeadEnc : AeadSeal) (c : MoshClient)
    (now_ms : Nat) : Except ClientError (List Bytes) × MoshClient :=
  let pr := c.stream.take_pending_diff
  let c₁ : MoshClient := { c with stream := pr.2 }
  let c₂ : MoshClient := if pr.1.isEmpty then c₁
    else { c₁ with ssp := c₁.ssp.push_payload pr.1 }
  let tr := c₂.ssp.tick now_ms
  let c₃ : MoshClient := { c₂ with ssp := tr.2 }
  sendInstructions aeadEnc c₃ now_ms tr.1

/-- `MoshClient::send_data`. -/
def MoshClient.send_data (aeadEnc : AeadSeal) (c : MoshClient) (data : Bytes)
    (now_ms : Nat) : Except ClientError (List Bytes) × MoshClient :=
  let c₁ : MoshClient := { c with stream := c.stream.write data }
  c₁.flush_to_udp aeadEnc now_ms

/-- `MoshClient::tick`. -/
def MoshClient.client_tick (aeadEnc : AeadSeal) (c : MoshClient)
    (now_ms : Nat) : Except ClientError (List Bytes) × MoshClient :=
  c.flush_to_udp aeadEnc now_ms


/-! ## Support definitions for the statements and witnesses -/

/-- A concrete AEAD pair for witnesses: "encryption" appends a 16-byte
all-zero tag, "decryption" strips it.  It satisfies the functional
contract assumed of the real AES-128-OCB3 cipher. -/
def sealStub : AeadSeal := fun _ pt => some (pt ++ List.replicate 16 0)

/-- The decrypt half of `sealStub`. -/
def opnStub : AeadOpen := fun _ ct =>
  if 16 ≤ ct.length then some (ct.take (ct.length - 16)) else none

/-- The RTT samples `process_ack` is specified to feed into the
estimator: one sample per drained pending record (front records with
`num ≤ ack_num`, only for a strictly advancing ack) whose
`retransmit_count` is zero. -/
def acked_rtt_samples (s : SspSession) (ack_num now_ms : Nat) : List Nat :=
  if ack_num ≤ s.send.last_acked then []
  else ((s.send.pending.takeWhile (fun p => decide (p.num ≤ ack_num))).filter
    (fun p => decide (p.retransmit_count = 0))).map (fun p => now_ms - p.sent_at_ms)

/-- The RTT estimator portion of the session state. -/
def rtt_view (s : SspSession) : ℚ × ℚ × Nat := (s.srtt_ms, s.rttvar_ms, s.rto_ms)

/-- The sender-state inequality of the spec:
`last_acked ≤ next_send_num − 1` (with `next_send_num ≥ 1`). -/
def senderInv (s : SspSession) : Prop :=
  1 ≤ s.send.next_send_num ∧ s.send.last_acked ≤ s.send.next_send_num - 1

/-- The RTO clamp invariant of the spec: `rto_ms ∈ [50, 1000]`. -/
def rtoInv (s : SspSession) : Prop :=
  RTO_MIN_MS ≤ s.rto_ms ∧ s.rto_ms ≤ RTO_MAX_MS

/-- The fragment most recently inserted for index `j` (the
`BTreeMap::insert` overwrite semantics). -/
def lastArrival (fs : List Fragment) (j : Nat) : Option Fragment :=
  fs.reverse.find? (fun f => decide (f.fragment_num = j))

/-- The most recently recorded final-fragment index. -/
def lastFinalNum (fs : List Fragment) : Option Nat :=
  (fs.reverse.find? (fun f => f.is_final)).map (fun f => f.fragment_num)

/-- The assembly state reached after feeding the fragments `fs` (all
with instruction id `id`) into a fresh `FragmentAssembly`. -/
def assemblyState (id : Nat) (fs : List Fragment) : FragmentAssembly :=
  ⟨if fs.isEmpty then none else some id, fun j => lastArrival fs j, lastFinalNum fs⟩

/-- A message long enough to overflow the `u16` fragment index at the
minimum fragment MTU of 64: `2^16 · 64 + 1` bytes make `2^16 + 1` chunks. -/
def hugeMsg : Bytes := List.replicate (2 ^ 16 * 64 + 1) 0

/-- The concrete datagram used by the C4 witness. -/
def pktC4 : Bytes :=
  ((CryptoSession.from_key.encrypt_packet sealStub .ToServer 1000 0
    [1, 2, 3]).1.toOption).getD []

/-- The single datagram produced by a fresh client sending one byte at
`now = 0` (used to exhibit the dseq / new_num mismatch). -/
def pktC2 : Bytes :=
  (((MoshClient.new none).send_data sealStub [1] 0).1.toOption.getD []).headD []

/-- Decrypt `pktC2`, parse its fragment, decode the carried Instruction
and read its `new_num`. -/
def newNumOfC2 : Option Nat :=
  ((((CryptoSession.from_key.decrypt_packet opnStub pktC2).1.toOption.bind
    (fun dp => (Fragment.from_bytes dp.payload).toOption)).bind
    (fun fr => (Instruction.decode_from_bytes fr.payload).toOption)).map
    (fun instr => instr.new_num_or_zero))

/-- The datagrams of one concrete `encrypt_and_fragment` call (C2 witness). -/
def pktsC2w : List Bytes :=
  ((MoshClient.new none).encrypt_and_fragment sealStub [9] 0).1.toOption.getD []

/-- The chunk list a message fragments into: `chunks(mtu)` pieces, or a
single empty chunk for the empty message (the heartbeat fragment). -/
def fragChunks (mtu : Nat) (m : Bytes) : List Bytes :=
  if m.isEmpty then [[]] else chunksOf mtu m

/-- `F` is the fragment list produced for chunk list `C` under
instruction id `id`: element `i` carries index `i`, chunk `i`, and the
final flag exactly on the last chunk. -/
def goodFragList (id : Nat) (C : List Bytes) (F : List Fragment) : Prop :=
  F.length = C.length ∧
  ∀ (i : Nat) (hi : i < F.length),
    F.get ⟨i, hi⟩ = ⟨id, i, decide (i = C.length - 1), C.getD i []⟩

/-- The 65-byte message of the C3 witness: exactly two fragments at
MTU 64. -/
def msgC3 : Bytes := List.replicate 65 7

/-- Its fragment list under a fresh `Fragmenter` with MTU 64. -/
def fragsC3 : List Fragment := ((Fragmenter.new 64).make_fragments msgC3).1

/-- The fragment list of `hugeMsg` under a fresh `Fragmenter` with
MTU 64: `2^16 + 1` fragments, whose `u16` indices wrap. -/
def hugeFrags : List Fragment := ((Fragmenter.new 64).make_fragments hugeMsg).1

/-! ## Lemmas: big-endian codecs -/

theorem toBeBytes_length (w n : Nat) : (toBeBytes w n).length = w := by
  induction w generalizing n with
  | zero => rfl
  | succ w ih => simp [toBeBytes, ih]

theorem fromBeBytes_toBeBytes (w n : Nat) :
    fromBeBytes (toBeBytes w n) = n % 256 ^ w := by
  induction w generalizing n with
  | zero => simp [toBeBytes, fromBeBytes, Nat.mod_one]
  | succ w ih =>
    simp only [toBeBytes, fromBeBytes, toBeBytes_length, ih]
    rw [pow_succ, Nat.mod_mul]
    ring

theorem fromBeBytes_replicate0_append (k : Nat) (l : Bytes) :
    fromBeBytes (List.replicate k 0 ++ l) = fromBeBytes l := by
  induction k with
  | zero => rfl
  | succ k ih => simpa [fromBeBytes] using ih

theorem fromBeBytes_nonce (x : Nat) :
    fromBeBytes (MoshNonce.new x) = x % 2 ^ 64 := by
  rw [MoshNonce.new, fromBeBytes_replicate0_append, fromBeBytes_toBeBytes]
  norm_num

theorem tail_bytes_nonce (x : Nat) :
    MoshNonce.tail_bytes (MoshNonce.new x) = toBeBytes 8 x := by
  show List.drop 4 (List.replicate 4 0 ++ toBeBytes 8 x) = toBeBytes 8 x
  exact List.drop_left' (by simp)

theorem apply_to_seq_lt (d : Direction) (n : Nat) : d.apply_to_seq n < 2 ^ 64 := by
  cases d <;> simp [Direction.apply_to_seq] <;>
    have := Nat.mod_lt n (y := 2 ^ 63) (by norm_num) <;> omega


theorem from_seq_apply (d : Direction) (n : Nat) :
    Direction.from_seq (d.apply_to_seq n) = d := by
  cases d
  · show (if n % 2 ^ 63 / 2 ^ 63 = 0 then Direction.ToServer else _) = _
    rw [if_pos (by omega)]
  · show (if (2 ^ 63 + n % 2 ^ 63) / 2 ^ 63 = 0 then _ else Direction.ToClient) = _
    rw [if_neg (by omega)]

/-! ## Lemmas: fragment wire codec -/

theorem from_bytes_append (id w : Nat) (hw : w < 2 ^ 16) (pl : Bytes) :
    Fragment.from_bytes (toBeBytes 8 id ++ toBeBytes 2 w ++ pl) =
      .ok ⟨id % 2 ^ 64, w % 2 ^ 15, decide (w / 2 ^ 15 = 1), pl⟩ := by
  have hA : (toBeBytes 8 id).length = 8 := toBeBytes_length _ _
  have hB : (toBeBytes 2 w).length = 2 := toBeBytes_length _ _
  have hlen : (toBeBytes 8 id ++ toBeBytes 2 w ++ pl).length = 10 + pl.length := by
    simp only [List.length_append, hA, hB]
  have htake8 : (toBeBytes 8 id ++ toBeBytes 2 w ++ pl).take 8 = toBeBytes 8 id := by
    rw [List.append_assoc]
    exact List.take_left' hA
  have hdrop8 : (toBeBytes 8 id ++ toBeBytes 2 w ++ pl).drop 8
      = toBeBytes 2 w ++ pl := by
    rw [List.append_assoc]
    exact List.drop_left' hA
  have hdrop10 : (toBeBytes 8 id ++ toBeBytes 2 w ++ pl).drop 10 = pl :=
    List.drop_left' (by simp only [List.length_append, hA, hB])
  unfold Fragment.from_bytes
  rw [if_neg (by omega)]
  rw [htake8, hdrop8, hdrop10]
  rw [List.take_left' hB]
  rw [fromBeBytes_toBeBytes, fromBeBytes_toBeBytes]
  have h64 : id % 256 ^ 8 = id % 2 ^ 64 := by norm_num
  have h16 : w % 256 ^ 2 = w := by
    rw [Nat.mod_eq_of_lt]
    omega
  rw [h64, h16]

theorem from_bytes_to_bytes (f : Fragment) :
    Fragment.from_bytes f.to_bytes =
      .ok ⟨f.instruction_id % 2 ^ 64,
        (if f.is_final then f.fragment_num % 2 ^ 16 % 2 ^ 15 + 2 ^ 15
          else f.fragment_num % 2 ^ 16) % 2 ^ 15,
        decide ((if f.is_final then f.fragment_num % 2 ^ 16 % 2 ^ 15 + 2 ^ 15
          else f.fragment_num % 2 ^ 16) / 2 ^ 15 = 1),
        f.payload⟩ := by
  have h := from_bytes_append (f.instruction_id % 2 ^ 64)
    (if f.is_final then f.fragment_num % 2 ^ 16 % 2 ^ 15 + 2 ^ 15
      else f.fragment_num % 2 ^ 16)
    (by split <;> omega) f.payload
  rw [Nat.mod_mod_of_dvd _ (dvd_refl _)] at h
  exact h

/-! ## Claim theorems: C10, C9, C4 -/

/-- C10: encoding then decoding a `Fragment` with `fragment_num ≤ 0x7FFF`
restores all four fields; for `fragment_num ≥ 0x8000` the index bits
overlap the final-fragment flag, the decoded `fragment_num` differs from
the original and the decoded `is_final` is forced to `true`, so the
round-trip does not preserve `fragment_num` and `is_final` together. -/
theorem C10_fragment_roundtrip :
    (∀ f : Fragment, f.instruction_id < 2 ^ 64 → f.fragment_num < 2 ^ 15 →
      Fragment.from_bytes f.to_bytes = .ok f) ∧
    (∀ f : Fragment, 2 ^ 15 ≤ f.fragment_num → f.fragment_num < 2 ^ 16 →
      ∃ g : Fragment, Fragment.from_bytes f.to_bytes = .ok g ∧
        g.fragment_num ≠ f.fragment_num ∧ g.is_final = true) := by
  constructor
  · intro f hid hnum
    rw [from_bytes_to_bytes]
    obtain ⟨id, num, fin, pl⟩ := f
    simp only at hid hnum
    simp only [Except.ok.injEq, Fragment.mk.injEq]
    refine ⟨Nat.mod_eq_of_lt hid, ?_, ?_, trivial⟩
    · cases fin <;> simp <;> omega
    · cases fin
      · simp only [Bool.false_eq_true, if_false]
        simp only [decide_eq_false_iff_not]
        omega
      · simp only [if_true]
        simp only [decide_eq_true_eq]
        omega
  · intro f h1 h2
    refine ⟨_, from_bytes_to_bytes f, ?_, ?_⟩
    · simp only
      split <;> omega
    · simp only
      rw [decide_eq_true_eq]
      split <;> omega

/-- C10 witness: a concrete fragment for each half. -/
theorem C10_fragment_roundtrip_witness :
    ((⟨42, 3, true, [1, 2]⟩ : Fragment).instruction_id < 2 ^ 64 ∧
      (⟨42, 3, true, [1, 2]⟩ : Fragment).fragment_num < 2 ^ 15 ∧
      Fragment.from_bytes (Fragment.to_bytes ⟨42, 3, true, [1, 2]⟩)
        = .ok ⟨42, 3, true, [1, 2]⟩) ∧
    (2 ^ 15 ≤ (⟨7, 40000, false, []⟩ : Fragment).fragment_num ∧
      (⟨7, 40000, false, []⟩ : Fragment).fragment_num < 2 ^ 16 ∧
      ∃ g : Fragment,
        Fragment.from_bytes (Fragment.to_bytes ⟨7, 40000, false, []⟩) = .ok g ∧
        g.fragment_num ≠ (⟨7, 40000, false, []⟩ : Fragment).fragment_num ∧
        g.is_final = true) :=
  ⟨⟨by norm_num, by norm_num,
    C10_fragment_roundtrip.1 ⟨42, 3, true, [1, 2]⟩ (by norm_num) (by norm_num)⟩,
   ⟨by norm_num, by norm_num,
    C10_fragment_roundtrip.2 ⟨7, 40000, false, []⟩ (by norm_num) (by norm_num)⟩⟩


/-! ## Lemmas: crypto session -/

theorem encrypt_packet_state (aeadEnc : AeadSeal) (s : CryptoSession)
    (d : Direction) (ts tsr : Nat) (p : Bytes) :
    (s.encrypt_packet aeadEnc d ts tsr p).2
      = { s with send_seq := (s.send_seq + 1) % 2 ^ 64 } := by
  simp only [CryptoSession.encrypt_packet]
  split <;> rfl

theorem encrypt_packet_ok_shape (aeadEnc : AeadSeal) (s : CryptoSession)
    (d : Direction) (ts tsr : Nat) (p pkt : Bytes)
    (h : (s.encrypt_packet aeadEnc d ts tsr p).1 = .ok pkt) :
    ∃ ct, aeadEnc (MoshNonce.new (d.apply_to_seq s.send_seq))
        (toBeBytes 8 (d.apply_to_seq s.send_seq) ++ toBeBytes 2 (ts % 2 ^ 16)
          ++ toBeBytes 2 (tsr % 2 ^ 16) ++ p) = some ct ∧
      pkt = toBeBytes 8 (d.apply_to_seq s.send_seq) ++ ct := by
  simp only [CryptoSession.encrypt_packet] at h
  cases hc : aeadEnc (MoshNonce.new (d.apply_to_seq s.send_seq))
      (toBeBytes 8 (d.apply_to_seq s.send_seq) ++ toBeBytes 2 (ts % 2 ^ 16)
        ++ toBeBytes 2 (tsr % 2 ^ 16) ++ p) with
  | none =>
    rw [hc] at h
    simp at h
  | some ct =>
    rw [hc] at h
    simp only [tail_bytes_nonce, Except.ok.injEq] at h
    exact ⟨ct, rfl, h.symm⟩

theorem decrypt_packet_ok (opn : AeadOpen) (s : CryptoSession)
    (dseq t r : Nat) (hdseq : dseq < 2 ^ 64) (ht : t < 2 ^ 16) (hr : r < 2 ^ 16)
    (pl ct : Bytes) (hct : 16 ≤ ct.length)
    (hopen : opn (MoshNonce.new dseq) ct
      = some (toBeBytes 8 dseq ++ toBeBytes 2 t ++ toBeBytes 2 r ++ pl)) :
    s.decrypt_packet opn (toBeBytes 8 dseq ++ ct) =
      (.ok ⟨dseq % 2 ^ 63, Direction.from_seq dseq, t, r, pl⟩,
        { s with recv_seq := dseq % 2 ^ 63 }) := by
  have hA : (toBeBytes 8 dseq).length = 8 := toBeBytes_length _ _
  have hB : (toBeBytes 2 t).length = 2 := toBeBytes_length _ _
  have hC : (toBeBytes 2 r).length = 2 := toBeBytes_length _ _
  have hplen : (toBeBytes 8 dseq ++ ct).length = 8 + ct.length := by simp [hA]
  have e1 : toBeBytes 8 dseq ++ toBeBytes 2 t ++ toBeBytes 2 r ++ pl
      = toBeBytes 8 dseq ++ (toBeBytes 2 t ++ (toBeBytes 2 r ++ pl)) := by
    simp [List.append_assoc]
  have e2 : toBeBytes 8 dseq ++ toBeBytes 2 t ++ toBeBytes 2 r ++ pl
      = (toBeBytes 8 dseq ++ toBeBytes 2 t) ++ (toBeBytes 2 r ++ pl) := by
    simp [List.append_assoc]
  have hptlen : (toBeBytes 8 dseq ++ toBeBytes 2 t ++ toBeBytes 2 r ++ pl).length
      = 12 + pl.length := by
    simp [hA, hB, hC]
    omega
  have htake8 : (toBeBytes 8 dseq ++ toBeBytes 2 t ++ toBeBytes 2 r ++ pl).take 8
      = toBeBytes 8 dseq := by
    rw [e1]
    exact List.take_left' hA
  have hdrop8 : (toBeBytes 8 dseq ++ toBeBytes 2 t ++ toBeBytes 2 r ++ pl).drop 8
      = toBeBytes 2 t ++ (toBeBytes 2 r ++ pl) := by
    rw [e1]
    exact List.drop_left' hA
  have hdrop10 : (toBeBytes 8 dseq ++ toBeBytes 2 t ++ toBeBytes 2 r ++ pl).drop 10
      = toBeBytes 2 r ++ pl := by
    rw [e2]
    exact List.drop_left' (by simp [hA, hB])
  have hdrop12 : (toBeBytes 8 dseq ++ toBeBytes 2 t ++ toBeBytes 2 r ++ pl).drop 12
      = pl :=
    List.drop_left' (by simp [hA, hB, hC])
  have hhead : MoshNonce.from_udp_payload_head (toBeBytes 8 dseq ++ ct)
      = some (MoshNonce.new dseq) := by
    unfold MoshNonce.from_udp_payload_head
    rw [if_neg (by omega), List.take_left' hA]
    rfl
  have h256 : (256 : Nat) ^ 8 = 2 ^ 64 := by norm_num
  have hvalA : fromBeBytes (toBeBytes 8 dseq) = dseq := by
    rw [fromBeBytes_toBeBytes, h256]
    exact Nat.mod_eq_of_lt hdseq
  have hvalB : fromBeBytes (toBeBytes 2 t) = t := by
    rw [fromBeBytes_toBeBytes]
    exact Nat.mod_eq_of_lt (by omega)
  have hvalC : fromBeBytes (toBeBytes 2 r) = r := by
    rw [fromBeBytes_toBeBytes]
    exact Nat.mod_eq_of_lt (by omega)
  simp only [CryptoSession.decrypt_packet]
  rw [if_neg (by omega)]
  rw [hhead]
  simp only [List.drop_left' hA]
  rw [hopen]
  simp only
  rw [if_neg (by omega)]
  rw [htake8, hdrop8, hdrop10]
  rw [List.take_left' hB, List.take_left' hC]
  rw [hvalA, hvalB, hvalC]
  rw [hdrop12]

/-- C9 (amended): the send counter starts at 0; every `encrypt_packet`
call advances it by exactly one (mod `2^64`) whether or not the cipher
succeeds, and a successful encryption embeds the pre-call counter in the
nonce; two encryptions with the same direction get distinct 12-byte
nonces provided both sequence numbers are below `2^63` — at a distance
of `2^63` the direction-bit masking collides even without `u64`
wrap-around. -/
theorem C9_nonce_uniqueness :
    CryptoSession.from_key.send_seq = 0 ∧
    (∀ (aeadEnc : AeadSeal) (s : CryptoSession) (d : Direction)
        (ts tsr : Nat) (p : Bytes),
      (s.encrypt_packet aeadEnc d ts tsr p).2.send_seq
          = (s.send_seq + 1) % 2 ^ 64 ∧
      ∀ pkt, (s.encrypt_packet aeadEnc d ts tsr p).1 = .ok pkt →
        pkt.take 8 = toBeBytes 8 (d.apply_to_seq s.send_seq)) ∧
    (∀ (d : Direction) (s₁ s₂ : Nat), s₁ < 2 ^ 63 → s₂ < 2 ^ 63 → s₁ ≠ s₂ →
      MoshNonce.new (d.apply_to_seq s₁) ≠ MoshNonce.new (d.apply_to_seq s₂)) := by
  refine ⟨rfl, ?_, ?_⟩
  · intro aeadEnc s d ts tsr p
    constructor
    · rw [encrypt_packet_state]
    · intro pkt h
      obtain ⟨ct, _, rfl⟩ := encrypt_packet_ok_shape aeadEnc s d ts tsr p pkt h
      exact List.take_left' (toBeBytes_length _ _)
  · intro d s₁ s₂ h₁ h₂ hne heq
    have h := congrArg fromBeBytes heq
    rw [fromBeBytes_nonce, fromBeBytes_nonce] at h
    cases d <;> simp only [Direction.apply_to_seq] at h <;> omega

/-- C9 counterexample to the unamended nonce-distinctness clause:
sequence numbers `0` and `2^63` are distinct and within `u64` range, yet
with the same direction they produce identical 12-byte nonces, because
`apply_to_seq` masks bit 63. -/
theorem C9_nonce_collision_counterexample :
    MoshNonce.new (Direction.ToServer.apply_to_seq 0)
      = MoshNonce.new (Direction.ToServer.apply_to_seq (2 ^ 63)) ∧
    (0 : Nat) ≠ 2 ^ 63 ∧ (2 ^ 63 : Nat) < 2 ^ 64 := by
  refine ⟨?_, by norm_num, by norm_num⟩
  norm_num [Direction.apply_to_seq]

/-- C9 witness. -/
theorem C9_nonce_uniqueness_witness :
    (CryptoSession.from_key.encrypt_packet sealStub .ToServer 5 6 [7]).2.send_seq
        = (CryptoSession.from_key.send_seq + 1) % 2 ^ 64 ∧
    (0 : Nat) < 2 ^ 63 ∧ (1 : Nat) < 2 ^ 63 ∧ (0 : Nat) ≠ 1 ∧
    MoshNonce.new (Direction.ToServer.apply_to_seq 0)
      ≠ MoshNonce.new (Direction.ToServer.apply_to_seq 1) :=
  ⟨(C9_nonce_uniqueness.2.1 sealStub CryptoSession.from_key .ToServer 5 6 [7]).1,
   by norm_num, by norm_num, by norm_num,
   C9_nonce_uniqueness.2.2 .ToServer 0 1 (by norm_num) (by norm_num)
     (by norm_num)⟩


theorem sealStub_hinv : ∀ nonce pt ct, sealStub nonce pt = some ct →
    opnStub nonce ct = some pt := by
  intro nonce pt ct h
  simp only [sealStub, Option.some.injEq] at h
  subst h
  unfold opnStub
  rw [if_pos (by simp)]
  have hl : (pt ++ List.replicate 16 0).length - 16 = pt.length := by simp
  rw [hl, List.take_left' rfl]

theorem sealStub_hlen : ∀ nonce pt ct, sealStub nonce pt = some ct →
    ct.length = pt.length + 16 := by
  intro nonce pt ct h
  simp only [sealStub, Option.some.injEq] at h
  subst h
  simp

/-- C4: for any AEAD cipher pair satisfying the functional contract of
AES-128-OCB3 (decryption inverts encryption under the same key and
nonce; the tag adds 16 bytes), decrypting an `encrypt_packet` datagram
under the same key succeeds and returns exactly the direction, the two
timestamps and the payload that were encrypted. -/
theorem C4_encrypt_decrypt_roundtrip
    (aeadEnc : AeadSeal) (opn : AeadOpen)
    (hinv : ∀ nonce pt ct, aeadEnc nonce pt = some ct → opn nonce ct = some pt)
    (hlen : ∀ nonce pt ct, aeadEnc nonce pt = some ct → ct.length = pt.length + 16)
    (s₁ s₂ : CryptoSession) (d : Direction) (ts tsr : Nat)
    (hts : ts < 2 ^ 16) (htsr : tsr < 2 ^ 16) (p pkt : Bytes)
    (henc : (s₁.encrypt_packet aeadEnc d ts tsr p).1 = .ok pkt) :
    (s₂.decrypt_packet opn pkt).1
      = .ok ⟨d.apply_to_seq s₁.send_seq % 2 ^ 63, d, ts, tsr, p⟩ := by
  obtain ⟨ct, hct, rfl⟩ := encrypt_packet_ok_shape aeadEnc s₁ d ts tsr p pkt henc
  rw [Nat.mod_eq_of_lt hts, Nat.mod_eq_of_lt htsr] at hct
  have hdseq := apply_to_seq_lt d s₁.send_seq
  have hctlen : ct.length = (12 + p.length) + 16 := by
    rw [hlen _ _ _ hct]
    simp [toBeBytes_length]
    omega
  have hdec := decrypt_packet_ok opn s₂ (d.apply_to_seq s₁.send_seq) ts tsr
    hdseq hts htsr p ct (by omega) (hinv _ _ _ hct)
  rw [hdec]
  rw [from_seq_apply]

/-- C4 witness: zero-key-style session, direction `ToServer`,
timestamps 1000 and 0, payload `[1, 2, 3]`, with the stub AEAD pair. -/
theorem C4_encrypt_decrypt_roundtrip_witness :
    (CryptoSession.from_key.encrypt_packet sealStub .ToServer 1000 0
        [1, 2, 3]).1 = .ok pktC4 ∧
    (CryptoSession.from_key.decrypt_packet opnStub pktC4).1
      = .ok ⟨0, .ToServer, 1000, 0, [1, 2, 3]⟩ :=
  ⟨by rfl,
   C4_encrypt_decrypt_roundtrip sealStub opnStub sealStub_hinv sealStub_hlen
     CryptoSession.from_key CryptoSession.from_key .ToServer 1000 0
     (by norm_num) (by norm_num) [1, 2, 3] pktC4 (by rfl)⟩


/-! ## Lemmas: SSP session state -/

theorem update_rtt_send (s : SspSession) (x : Nat) :
    (s.update_rtt x).send = s.send := rfl

theorem update_rtt_recv (s : SspSession) (x : Nat) :
    (s.update_rtt x).recv = s.recv := rfl

theorem update_rtt_rtoInv (s : SspSession) (x : Nat) : rtoInv (s.update_rtt x) := by
  unfold rtoInv SspSession.update_rtt clampNat RTO_MIN_MS RTO_MAX_MS
  constructor
  · exact le_max_left _ _
  · exact max_le (by norm_num) (min_le_right _ _)

theorem process_ack_loop_send (ack now : Nat) :
    ∀ (pending : List PendingInstruction) (s : SspSession),
      (s.process_ack_loop ack now pending).1.send = s.send := by
  intro pending
  induction pending with
  | nil => intro s; rfl
  | cons p rest ih =>
    intro s
    unfold SspSession.process_ack_loop
    split
    · rw [ih]
      split <;> rfl
    · rfl

theorem process_ack_loop_recv (ack now : Nat) :
    ∀ (pending : List PendingInstruction) (s : SspSession),
      (s.process_ack_loop ack now pending).1.recv = s.recv := by
  intro pending
  induction pending with
  | nil => intro s; rfl
  | cons p rest ih =>
    intro s
    unfold SspSession.process_ack_loop
    split
    · rw [ih]
      split <;> rfl
    · rfl

theorem process_ack_loop_rtoInv (ack now : Nat) :
    ∀ (pending : List PendingInstruction) (s : SspSession),
      rtoInv s → rtoInv (s.process_ack_loop ack now pending).1 := by
  intro pending
  induction pending with
  | nil => intro s h; exact h
  | cons p rest ih =>
    intro s h
    unfold SspSession.process_ack_loop
    split
    · apply ih
      split
      · exact update_rtt_rtoInv _ _
      · exact h
    · exact h

theorem process_ack_loop_foldl (ack now : Nat) :
    ∀ (pending : List PendingInstruction) (s : SspSession),
      (s.process_ack_loop ack now pending).1
        = List.foldl SspSession.update_rtt s
            (((pending.takeWhile (fun p => decide (p.num ≤ ack))).filter
              (fun p => decide (p.retransmit_count = 0))).map
              (fun p => now - p.sent_at_ms)) := by
  intro pending
  induction pending with
  | nil => intro s; rfl
  | cons p rest ih =>
    intro s
    unfold SspSession.process_ack_loop
    by_cases hp : p.num ≤ ack
    · rw [if_pos hp]
      rw [ih]
      by_cases hz : p.retransmit_count = 0
      · simp [List.takeWhile_cons, hp, hz, List.filter_cons]
      · simp [List.takeWhile_cons, hp, hz, List.filter_cons]
    · rw [if_neg hp]
      simp [List.takeWhile_cons, hp]

theorem process_ack_send_next (s : SspSession) (ack now : Nat) :
    (s.process_ack ack now).send.next_send_num = s.send.next_send_num ∧
    (s.process_ack ack now).send.last_acked
      = (if ack ≤ s.send.last_acked then s.send.last_acked else ack) := by
  unfold SspSession.process_ack
  split
  · exact ⟨rfl, rfl⟩
  · refine ⟨?_, rfl⟩
    show (s.process_ack_loop ack now s.send.pending).1.send.next_send_num = _
    rw [process_ack_loop_send]

theorem process_ack_rtt_view (s : SspSession) (ack now : Nat) :
    rtt_view (s.process_ack ack now)
      = rtt_view (List.foldl SspSession.update_rtt s (acked_rtt_samples s ack now)) := by
  unfold SspSession.process_ack acked_rtt_samples
  split
  · rfl
  · show rtt_view (s.process_ack_loop ack now s.send.pending).1 = _
    rw [process_ack_loop_foldl]

theorem process_ack_rtoInv (s : SspSession) (ack now : Nat) (h : rtoInv s) :
    rtoInv (s.process_ack ack now) := by
  unfold SspSession.process_ack
  split
  · exact h
  · show rtoInv { (s.process_ack_loop ack now s.send.pending).1
      with send := _ }
    have := process_ack_loop_rtoInv ack now s.send.pending s h
    exact this

theorem tick_state (s : SspSession) (now : Nat) :
    (s.tick now).2.send.next_send_num
      = (if s.send.outgoing_diff.isEmpty then s.send.next_send_num
          else (s.send.next_send_num + 1) % 2 ^ 64) ∧
    (s.tick now).2.send.last_acked = s.send.last_acked ∧
    rtt_view (s.tick now).2 = rtt_view s := by
  simp only [SspSession.tick]
  refine ⟨?_, ?_, ?_⟩ <;> (repeat' split) <;> rfl

theorem recv_instruction_send_rtt (s : SspSession) (instr : Instruction) (now : Nat) :
    (s.recv_instruction instr now).2.send
        = (s.process_ack instr.ack_num_or_zero now).send ∧
    rtt_view (s.recv_instruction instr now).2
        = rtt_view (s.process_ack instr.ack_num_or_zero now) := by
  simp only [SspSession.recv_instruction]
  refine ⟨?_, ?_⟩ <;> (repeat' split) <;> rfl

/-! ## Claim theorems: C5, C6, C8 -/

/-- C5 counterexample: the inequality `last_acked ≤ next_send_num − 1`
holds in the fresh session but is destroyed by receiving an Instruction
whose `ack_num` (5) exceeds every number the session has sent:
`process_ack` adopts the ack without an upper bound check. -/
theorem C5_sender_inequality_counterexample :
    senderInv SspSession.new ∧
    ¬ senderInv (SspSession.new.recv_instruction (Instruction.new_ack 5 0) 0).2 := by
  constructor
  · constructor <;> decide
  · intro h
    obtain ⟨h1, h2⟩ := h
    have e1 : (SspSession.new.recv_instruction
        (Instruction.new_ack 5 0) 0).2.send.last_acked = 5 := by rfl
    have e2 : (SspSession.new.recv_instruction
        (Instruction.new_ack 5 0) 0).2.send.next_send_num = 1 := by rfl
    rw [e1, e2] at h2
    omega

/-- C5 (amended): `last_acked ≤ next_send_num − 1` holds initially and
is preserved by `push_payload` and `tick` (absent `u64` wrap of
`next_send_num`), and by `recv_instruction` whenever the received
`ack_num` does not exceed `next_send_num − 1`, i.e. acknowledges only
numbers the session has actually sent; a larger hostile `ack_num` is
adopted unchecked and violates the inequality. -/
theorem C5_sender_inequality :
    senderInv SspSession.new ∧
    (∀ (s : SspSession) (diff : Bytes), senderInv s →
      senderInv (s.push_payload diff)) ∧
    (∀ (s : SspSession) (now : Nat), senderInv s →
      s.send.next_send_num + 1 < 2 ^ 64 → senderInv (s.tick now).2) ∧
    (∀ (s : SspSession) (instr : Instruction) (now : Nat), senderInv s →
      instr.ack_num_or_zero ≤ s.send.next_send_num - 1 →
      senderInv (s.recv_instruction instr now).2) := by
  refine ⟨⟨by decide, by decide⟩, ?_, ?_, ?_⟩
  · intro s diff h
    exact h
  · intro s now h hwrap
    obtain ⟨hnext, hacked, -⟩ := tick_state s now
    obtain ⟨h1, h2⟩ := h
    constructor
    · rw [hnext]
      split <;> omega
    · rw [hnext, hacked]
      split <;> omega
  · intro s instr now h hack
    obtain ⟨hsend, -⟩ := recv_instruction_send_rtt s instr now
    obtain ⟨hnext, hacked⟩ := process_ack_send_next s instr.ack_num_or_zero now
    obtain ⟨h1, h2⟩ := h
    constructor
    · rw [hsend, hnext]
      exact h1
    · rw [hsend, hnext, hacked]
      split <;> omega

/-- C5 witness. -/
theorem C5_sender_inequality_witness :
    senderInv SspSession.new ∧
    senderInv (SspSession.new.push_payload [1]) ∧
    SspSession.new.send.next_send_num + 1 < 2 ^ 64 ∧
    senderInv (SspSession.new.tick 0).2 ∧
    (Instruction.new_ack 0 0).ack_num_or_zero
      ≤ SspSession.new.send.next_send_num - 1 ∧
    senderInv (SspSession.new.recv_instruction (Instruction.new_ack 0 0) 0).2 :=
  ⟨C5_sender_inequality.1,
   C5_sender_inequality.2.1 SspSession.new [1] C5_sender_inequality.1,
   by decide,
   C5_sender_inequality.2.2.1 SspSession.new 0 C5_sender_inequality.1 (by decide),
   by decide,
   C5_sender_inequality.2.2.2 SspSession.new (Instruction.new_ack 0 0) 0
     C5_sender_inequality.1 (by decide)⟩

/-- C6: Karn's rule as implemented.  The RTT estimator state changes
only through `process_ack`, where it equals the fold of `update_rtt`
over exactly the samples of the drained pending records (front records
with `num ≤ ack_num`, for a strictly advancing ack) whose
`retransmit_count` field is zero; `push_payload` and `tick` never touch
the estimator, and `recv_instruction` touches it only through its
`process_ack` call. -/
theorem C6_karn_rtt_samples :
    (∀ (s : SspSession) (ack now : Nat),
      rtt_view (s.process_ack ack now)
        = rtt_view (List.foldl SspSession.update_rtt s
            (acked_rtt_samples s ack now))) ∧
    (∀ (s : SspSession) (diff : Bytes), rtt_view (s.push_payload diff) = rtt_view s) ∧
    (∀ (s : SspSession) (now : Nat), rtt_view (s.tick now).2 = rtt_view s) ∧
    (∀ (s : SspSession) (instr : Instruction) (now : Nat),
      rtt_view (s.recv_instruction instr now).2
        = rtt_view (s.process_ack instr.ack_num_or_zero now)) := by
  refine ⟨process_ack_rtt_view, ?_, ?_, ?_⟩
  · intro s diff
    rfl
  · intro s now
    exact (tick_state s now).2.2
  · intro s instr now
    exact (recv_instruction_send_rtt s instr now).2

/-- C8: the retransmission timeout is 1000 ms initially and stays inside
`[50, 1000]` under every operation and any RTT samples, because
`update_rtt` ends in an unconditional clamp. -/
theorem C8_rto_clamp :
    SspSession.new.rto_ms = RTO_INITIAL_MS ∧
    rtoInv SspSession.new ∧
    (∀ (s : SspSession) (diff : Bytes), rtoInv s → rtoInv (s.push_payload diff)) ∧
    (∀ (s : SspSession) (now : Nat), rtoInv s → rtoInv (s.tick now).2) ∧
    (∀ (s : SspSession) (instr : Instruction) (now : Nat), rtoInv s →
      rtoInv (s.recv_instruction instr now).2) := by
  refine ⟨rfl, ⟨by decide, by decide⟩, ?_, ?_, ?_⟩
  · intro s diff h
    exact h
  · intro s now h
    have := (tick_state s now).2.2
    unfold rtoInv at *
    unfold rtt_view at this
    have h3 : (s.tick now).2.rto_ms = s.rto_ms := congrArg (fun t => t.2.2) this
    rw [h3]
    exact h
  · intro s instr now h
    have hv := (recv_instruction_send_rtt s instr now).2
    have h3 : (s.recv_instruction instr now).2.rto_ms
        = (s.process_ack instr.ack_num_or_zero now).rto_ms :=
      congrArg (fun t => t.2.2) hv
    have hpa := process_ack_rtoInv s instr.ack_num_or_zero now h
    unfold rtoInv at *
    rw [h3]
    exact hpa

/-- C8 witness. -/
theorem C8_rto_clamp_witness :
    rtoInv SspSession.new ∧
    rtoInv (SspSession.new.push_payload [2]) ∧
    rtoInv (SspSession.new.tick 7).2 ∧
    rtoInv (SspSession.new.recv_instruction (Instruction.new_ack 0 0) 7).2 :=
  ⟨C8_rto_clamp.2.1,
   C8_rto_clamp.2.2.1 SspSession.new [2] C8_rto_clamp.2.1,
   C8_rto_clamp.2.2.2.1 SspSession.new 7 C8_rto_clamp.2.1,
   C8_rto_clamp.2.2.2.2 SspSession.new (Instruction.new_ack 0 0) 7 C8_rto_clamp.2.1⟩


/-! ## Lemmas: varints and the Instruction codec -/

theorem varintDec_varintGo (fuel : Nat) :
    ∀ (n : Nat), n < 128 ^ fuel → ∀ (rest : Bytes),
      varintDec (varintGo fuel n ++ rest) = some (n, rest) := by
  induction fuel with
  | zero =>
    intro n hn rest
    have : n = 0 := by omega
    subst this
    rfl
  | succ fuel ih =>
    intro n hn rest
    by_cases hlt : n < 128
    · simp [varintGo, hlt, varintDec]
    · simp only [varintGo, if_neg hlt, List.cons_append]
      unfold varintDec
      rw [if_neg (by omega)]
      rw [ih (n / 128) (Nat.div_lt_of_lt_mul (by rw [← pow_succ']; exact hn)) rest]
      simp only [Option.some.injEq, Prod.mk.injEq]
      exact ⟨by omega, trivial⟩

theorem varintDec_varintEnc (n : Nat) (hn : n < 2 ^ 64) (rest : Bytes) :
    varintDec (varintEnc n ++ rest) = some (n, rest) :=
  varintDec_varintGo 10 n (by norm_num at hn ⊢; omega) rest

theorem decodeFields_nil (fuel : Nat) (acc : Instruction) :
    decodeFields fuel acc [] = some acc := by
  cases fuel <;> rfl

theorem decodeFields_varint_step (fuel : Nat) (acc : Instruction) (tag v : Nat)
    (rest : Bytes) (hwire : tag % 8 = 0) (hv : v < 2 ^ 64) :
    decodeFields (fuel + 1) acc (tag :: (varintEnc v ++ rest))
      = decodeFields fuel (setVarintField acc (tag / 8) v) rest := by
  show (if tag % 8 = 0 then
      match varintDec (varintEnc v ++ rest) with
      | some (v, rest') => decodeFields fuel (setVarintField acc (tag / 8) v) rest'
      | none => none
    else if tag % 8 = 2 then _ else if tag % 8 = 1 then _
    else if tag % 8 = 5 then _ else none) = _
  rw [if_pos hwire, varintDec_varintEnc v hv]

theorem varintGo_length_pos (fuel n : Nat) : 0 < (varintGo fuel n).length := by
  cases fuel
  · simp [varintGo]
  · simp only [varintGo]
    split <;> simp

theorem decode_encode_ack (a t : Nat) (ha : a < 2 ^ 64) (ht : t < 2 ^ 64) :
    Instruction.decode_from_bytes ((Instruction.new_ack a t).encode_to_bytes)
      = .ok (Instruction.new_ack a t) := by
  have hma : a % 2 ^ 64 = a := Nat.mod_eq_of_lt ha
  have hmt : t % 2 ^ 64 = t := Nat.mod_eq_of_lt ht
  have henc : (Instruction.new_ack a t).encode_to_bytes
      = 8 :: (varintEnc 2 ++ (16 :: (varintEnc 0 ++ (24 :: (varintEnc 0
          ++ (32 :: (varintEnc a ++ (40 :: (varintEnc t ++ []))))))))) := by
    simp only [Instruction.encode_to_bytes, Instruction.new_ack,
      MOSH_PROTOCOL_VERSION]
    simp [hma, hmt, List.append_assoc]
    rw [Nat.mod_eq_of_lt (by omega : a < 18446744073709551616),
      Nat.mod_eq_of_lt (by omega : t < 18446744073709551616)]
  have hlen5 : ∃ k, ((Instruction.new_ack a t).encode_to_bytes).length = k + 5 := by
    refine ⟨((Instruction.new_ack a t).encode_to_bytes).length - 5, ?_⟩
    rw [henc]
    simp only [List.length_cons, List.length_append]
    have h1 := varintGo_length_pos 10 a
    have h2 := varintGo_length_pos 10 t
    simp only [varintEnc] at *
    omega
  obtain ⟨k, hk⟩ := hlen5
  unfold Instruction.decode_from_bytes
  rw [hk, henc]
  rw [show k + 5 = (k + 4) + 1 from rfl]
  rw [decodeFields_varint_step _ _ 8 2 _ (by norm_num) (by norm_num)]
  rw [show k + 4 = (k + 3) + 1 from rfl]
  rw [decodeFields_varint_step _ _ 16 0 _ (by norm_num) (by norm_num)]
  rw [show k + 3 = (k + 2) + 1 from rfl]
  rw [decodeFields_varint_step _ _ 24 0 _ (by norm_num) (by norm_num)]
  rw [show k + 2 = (k + 1) + 1 from rfl]
  rw [decodeFields_varint_step _ _ 32 a _ (by norm_num) ha]
  rw [decodeFields_varint_step _ _ 40 t _ (by norm_num) ht]
  rw [decodeFields_nil]
  have hsets : setVarintField (setVarintField (setVarintField (setVarintField
      (setVarintField Instruction.mkDefault (8 / 8) 2) (16 / 8) 0) (24 / 8) 0)
      (32 / 8) a) (40 / 8) t = Instruction.new_ack a t := by
    simp [setVarintField, Instruction.mkDefault, Instruction.new_ack,
      MOSH_PROTOCOL_VERSION, hma, hmt]
    exact ⟨by omega, by omega⟩
  rw [hsets]
  rfl

/-! ## Lemmas: tick in the idle case -/

theorem tick_idle (s : SspSession) (now : Nat)
    (hout : s.send.outgoing_diff = [])
    (hretx : ∀ p ∈ s.send.pending, now - p.sent_at_ms < s.rto_ms) :
    (HEARTBEAT_INTERVAL_MS ≤ now - s.send.last_send_ms →
      s.tick now = ([(s.make_ack now).encode_to_bytes],
        { s with send.last_send_ms := now })) ∧
    (now - s.send.last_send_ms < HEARTBEAT_INTERVAL_MS →
      s.tick now = ([], s)) := by
  obtain ⟨⟨nsn, la, pend, outd, lsm⟩, rcv, sr, rv, rto⟩ := s
  dsimp only at hout hretx ⊢
  subst hout
  have hfilter : pend.filter (fun p => decide (rto ≤ now - p.sent_at_ms)) = [] := by
    rw [List.filter_eq_nil_iff]
    intro p hp
    have := hretx p hp
    simp only [decide_eq_true_eq]
    omega
  have hmap : pend.map (fun p =>
      if rto ≤ now - p.sent_at_ms then
        { p with sent_at_ms := now,
                 retransmit_count := (p.retransmit_count + 1) % 2 ^ 32 }
      else p) = pend := by
    conv_rhs => rw [← List.map_id pend]
    apply List.map_congr_left
    intro p hp
    have := hretx p hp
    rw [if_neg (by omega)]
    rfl
  constructor
  · intro hhb
    simp only [SspSession.tick, List.isEmpty_nil, if_true, hfilter, hmap,
      List.map_nil, List.append_nil, List.nil_append]
    rw [if_pos]
    simp only [Bool.true_and, SspSession.needs_heartbeat, decide_eq_true_eq]
    exact hhb
  · intro hlt
    simp only [SspSession.tick, List.isEmpty_nil, if_true, hfilter, hmap,
      List.map_nil, List.append_nil, List.nil_append]
    rw [if_neg]
    simp only [Bool.true_and, SspSession.needs_heartbeat, decide_eq_true_eq]
    omega

/-- C7: with an empty outgoing buffer and no retransmission-eligible
pending record, a tick at least 3000 ms after the last send emits
exactly the encoded pure-ACK Instruction of `make_ack` — it decodes to
`new_num = 0`, `ack_num = last_recv_num`,
`throwaway_num = peer throwaway watermark` and no diff — leaves the
pending queue untouched and only sets `last_send_ms := now`; a tick
before the interval emits nothing and leaves the state unchanged. -/
theorem C7_heartbeat_tick (s : SspSession) (now : Nat)
    (hout : s.send.outgoing_diff = [])
    (hretx : ∀ p ∈ s.send.pending, now - p.sent_at_ms < s.rto_ms)
    (hrn : s.recv.last_recv_num < 2 ^ 64)
    (htn : s.recv.throwaway_num < 2 ^ 64) :
    (HEARTBEAT_INTERVAL_MS ≤ now - s.send.last_send_ms →
      s.tick now = ([(s.make_ack now).encode_to_bytes],
        { s with send.last_send_ms := now }) ∧
      Instruction.decode_from_bytes ((s.make_ack now).encode_to_bytes)
        = .ok (Instruction.new_ack s.recv.last_recv_num s.recv.throwaway_num) ∧
      (s.make_ack now).new_num_or_zero = 0 ∧
      (s.make_ack now).ack_num_or_zero = s.recv.last_recv_num ∧
      (s.make_ack now).throwaway_num_or_zero = s.recv.throwaway_num ∧
      (s.make_ack now).has_diff = false) ∧
    (now - s.send.last_send_ms < HEARTBEAT_INTERVAL_MS →
      s.tick now = ([], s)) := by
  obtain ⟨h1, h2⟩ := tick_idle s now hout hretx
  refine ⟨fun hhb => ⟨h1 hhb, ?_, rfl, rfl, rfl, rfl⟩, h2⟩
  exact decode_encode_ack s.recv.last_recv_num s.recv.throwaway_num hrn htn

/-- C7 witness: the fresh session at `now = 3000` (heartbeat due) and at
`now = 2999` (not due). -/
theorem C7_heartbeat_tick_witness :
    SspSession.new.send.outgoing_diff = [] ∧
    HEARTBEAT_INTERVAL_MS ≤ 3000 - SspSession.new.send.last_send_ms ∧
    SspSession.new.tick 3000
      = ([(SspSession.new.make_ack 3000).encode_to_bytes],
        { SspSession.new with send.last_send_ms := 3000 }) ∧
    Instruction.decode_from_bytes ((SspSession.new.make_ack 3000).encode_to_bytes)
      = .ok (Instruction.new_ack 0 0) ∧
    (2999 : Nat) - SspSession.new.send.last_send_ms < HEARTBEAT_INTERVAL_MS ∧
    SspSession.new.tick 2999 = ([], SspSession.new) := by
  have h3000 := (C7_heartbeat_tick SspSession.new 3000 rfl
    (fun p hp => absurd hp (List.not_mem_nil p)) (by decide) (by decide)).1
    (by decide)
  have h2999 := (C7_heartbeat_tick SspSession.new 2999 rfl
    (fun p hp => absurd hp (List.not_mem_nil p)) (by decide) (by decide)).2
    (by decide)
  exact ⟨rfl, by decide, h3000.1, h3000.2.1, by decide, h2999⟩


/-! ## Lemmas and claim theorems: the client facade (C1, C2) -/

theorem decrypt_packet_error_state (opn : AeadOpen) (s : CryptoSession)
    (pkt : Bytes) (e : CryptoError)
    (h : (s.decrypt_packet opn pkt).1 = .error e) :
    (s.decrypt_packet opn pkt).2 = s := by
  by_cases h24 : pkt.length < 24
  · simp [CryptoSession.decrypt_packet, h24]
  · cases hh : MoshNonce.from_udp_payload_head pkt with
    | none => simp [CryptoSession.decrypt_packet, h24, hh]
    | some nonce =>
      cases ho : opn nonce (pkt.drop 8) with
      | none => simp [CryptoSession.decrypt_packet, h24, hh, ho]
      | some pt =>
        by_cases h12 : pt.length < 12
        · simp [CryptoSession.decrypt_packet, h24, hh, ho, h12]
        · simp [CryptoSession.decrypt_packet, h24, hh, ho, h12] at h

/-- C1 counterexample: a malformed (too short) datagram makes
`recv_udp_packet` return an error to the caller rather than returning
normally with empty output; the session state is left unchanged. -/
theorem C1_recv_error_counterexample :
    (MoshClient.new none).recv_udp_packet opnStub (List.replicate 10 0) 0
      = (.error (.decryptError .PacketTooShort), MoshClient.new none) := by
  rfl

/-- C1 (amended): `recv_udp_packet` propagates every ingress failure to
the caller (`map_err` + `?` in the source) instead of swallowing it.
A datagram on which decryption fails (too short or AEAD authentication
failure) yields `decryptError` with the entire session state unchanged;
a datagram that decrypts but carries a malformed fragment header yields
`fragmentError`, having recorded only the new crypto state and remote
timestamp; a datagram whose reassembled Instruction bytes do not decode
yields `protoError`, having additionally recorded the new assembly
state. -/
theorem C1_recv_error_propagation (opn : AeadOpen) (c : MoshClient)
    (udp_bytes : Bytes) (now_ms : Nat) :
    (∀ e, (c.crypto.decrypt_packet opn udp_bytes).1 = .error e →
      c.recv_udp_packet opn udp_bytes now_ms = (.error (.decryptError e), c)) ∧
    (∀ dp crypto2 e,
      c.crypto.decrypt_packet opn udp_bytes = (.ok dp, crypto2) →
      Fragment.from_bytes dp.payload = .error e →
      c.recv_udp_packet opn udp_bytes now_ms
        = (.error (.fragmentError e),
           { c with crypto := crypto2,
                    last_remote_timestamp := dp.timestamp })) ∧
    (∀ dp crypto2 frag ib asm2 e,
      c.crypto.decrypt_packet opn udp_bytes = (.ok dp, crypto2) →
      Fragment.from_bytes dp.payload = .ok frag →
      c.assembly.add_fragment frag = (some ib, asm2) →
      Instruction.decode_from_bytes ib = .error e →
      c.recv_udp_packet opn udp_bytes now_ms
        = (.error (.protoError e),
           { c with crypto := crypto2,
                    last_remote_timestamp := dp.timestamp,
                    assembly := asm2 })) := by
  refine ⟨?_, ?_, ?_⟩
  · intro e h
    have h2 := decrypt_packet_error_state opn c.crypto udp_bytes e h
    have h3 : c.crypto.decrypt_packet opn udp_bytes = (.error e, c.crypto) :=
      Prod.ext h h2
    unfold MoshClient.recv_udp_packet
    rw [h3]
  · intro dp crypto2 e h1 h2
    unfold MoshClient.recv_udp_packet
    rw [h1]
    dsimp only
    rw [h2]
  · intro dp crypto2 frag ib asm2 e h1 h2 h3 h4
    unfold MoshClient.recv_udp_packet
    rw [h1]
    dsimp only
    rw [h2]
    dsimp only
    rw [h3]
    dsimp only
    rw [h4]

/-- C1 witness: three concrete malformed datagrams, one per failing
stage.  A 30-byte all-zero datagram fails AEAD decryption
(`DecryptionFailed`) with the client state untouched; a 36-byte all-zero
datagram decrypts to an empty fragment payload, a malformed fragment
header (`TooShort`); a 47-byte datagram reassembles to the Instruction
bytes `[8]`, a truncated field that fails to decode (`DecodeFailed`).
Each returns an error to the caller. -/
theorem C1_recv_error_witness :
    (MoshClient.new none).recv_udp_packet opnStub (List.replicate 30 0) 5
      = (.error (.decryptError CryptoError.DecryptionFailed),
         MoshClient.new none) ∧
    ((MoshClient.new none).recv_udp_packet opnStub (List.replicate 36 0) 5).1
      = .error (.fragmentError TransportError.TooShort) ∧
    ((MoshClient.new none).recv_udp_packet opnStub
        (List.replicate 28 0 ++ [128, 0, 8] ++ List.replicate 16 0) 5).1
      = .error (.protoError ProtoError.DecodeFailed) := by
  refine ⟨?_, ?_, ?_⟩
  · exact (C1_recv_error_propagation opnStub (MoshClient.new none)
      (List.replicate 30 0) 5).1 CryptoError.DecryptionFailed (by rfl)
  · have h := (C1_recv_error_propagation opnStub (MoshClient.new none)
      (List.replicate 36 0) 5).2.1 ⟨0, .ToServer, 0, 0, []⟩ ⟨0, 0⟩
      TransportError.TooShort (by rfl) (by rfl)
    rw [h]
  · have h := (C1_recv_error_propagation opnStub (MoshClient.new none)
      (List.replicate 28 0 ++ [128, 0, 8] ++ List.replicate 16 0) 5).2.2
      ⟨0, .ToServer, 0, 0, [0, 0, 0, 0, 0, 0, 0, 0, 128, 0, 8]⟩ ⟨0, 0⟩
      ⟨0, 0, true, [8]⟩ [8]
      ⟨some 0, fun j => if j = 0 then some ⟨0, 0, true, [8]⟩ else none, some 0⟩
      ProtoError.DecodeFailed (by rfl) (by rfl) (by rfl) (by rfl)
    rw [h]

theorem encryptFragments_dseq (aeadEnc : AeadSeal) (ts tsr : Nat) :
    ∀ (frags : List Fragment) (crypto : CryptoSession) (pkts : List Bytes),
      (encryptFragments aeadEnc crypto ts tsr frags).1 = .ok pkts →
      ∀ (i : Nat) (hi : i < pkts.length),
        fromBeBytes ((pkts.get ⟨i, hi⟩).take 8) % 2 ^ 63
          = (crypto.send_seq + i) % 2 ^ 63 := by
  intro frags
  induction frags with
  | nil =>
    intro crypto pkts h i hi
    simp only [encryptFragments, Except.ok.injEq] at h
    subst h
    simp at hi
  | cons f rest ih =>
    intro crypto pkts h i hi
    simp only [encryptFragments] at h
    rcases henc : crypto.encrypt_packet aeadEnc .ToServer ts tsr f.to_bytes
      with ⟨res, crypto'⟩
    rw [henc] at h
    cases res with
    | error e => simp at h
    | ok pkt =>
      dsimp only at h
      rcases hrec : encryptFragments aeadEnc crypto' ts tsr rest
        with ⟨res2, crypto''⟩
      rw [hrec] at h
      cases res2 with
      | error e => simp at h
      | ok pkts2 =>
        dsimp only at h
        simp only [Except.ok.injEq] at h
        subst h
        have hpkt : (crypto.encrypt_packet aeadEnc .ToServer ts tsr
            f.to_bytes).1 = .ok pkt := by rw [henc]
        obtain ⟨ct, -, rfl⟩ :=
          encrypt_packet_ok_shape aeadEnc crypto .ToServer ts tsr
            f.to_bytes pkt hpkt
        have hstate : crypto' = { crypto with
            send_seq := (crypto.send_seq + 1) % 2 ^ 64 } := by
          have := encrypt_packet_state aeadEnc crypto .ToServer ts tsr
            f.to_bytes
          rw [henc] at this
          exact this
        cases i with
        | zero =>
          show fromBeBytes ((toBeBytes 8
              (Direction.ToServer.apply_to_seq crypto.send_seq)
              ++ ct).take 8) % 2 ^ 63 = _
          rw [List.take_left' (toBeBytes_length _ _), fromBeBytes_toBeBytes]
          show Direction.ToServer.apply_to_seq crypto.send_seq % 256 ^ 8
              % 2 ^ 63 = _
          simp only [Direction.apply_to_seq]
          have h8 : (256 : Nat) ^ 8 = 2 ^ 64 := by norm_num
          rw [h8]
          omega
        | succ j =>
          have hj : j < pkts2.length := by
            simp at hi
            omega
          have := ih crypto' pkts2 (by rw [hrec]) j hj
          rw [hstate] at this
          show fromBeBytes ((pkts2.get ⟨j, hj⟩).take 8) % 2 ^ 63 = _
          rw [this]
          show ((crypto.send_seq + 1) % 2 ^ 64 + j) % 2 ^ 63 = _
          omega

/-- C2 counterexample: a fresh client sending its first byte produces a
datagram whose embedded `dseq` has low 63 bits equal to 0 (the crypto
session's packet counter), while the Instruction it was generated for
has `new_num = 1`.  The datagram decrypts validly and its Instruction
decodes, as the pipeline below exhibits. -/
theorem C2_dseq_counterexample :
    ((MoshClient.new none).send_data sealStub [1] 0).1 = .ok [pktC2] ∧
    fromBeBytes (pktC2.take 8) % 2 ^ 63 = 0 ∧
    newNumOfC2 = some 1 ∧ (0 : Nat) ≠ 1 :=
  ⟨by rfl, by rfl, by rfl, by norm_num⟩

/-- C2 (amended): the low 63 bits of the `dseq` embedded in the `i`-th
datagram of an `encrypt_and_fragment` call equal
`(send_seq₀ + i) mod 2^63`, where `send_seq₀` is the crypto session's
per-packet counter before the call.  The counter is independent of the
SSP `new_num` of the Instruction being sent (heartbeats and every
individual fragment advance it), so the spec's equation with `new_num`
does not hold. -/
theorem C2_dseq_is_crypto_counter (aeadEnc : AeadSeal) (c : MoshClient)
    (instruction_bytes : Bytes) (now_ms : Nat) (pkts : List Bytes)
    (h : (c.encrypt_and_fragment aeadEnc instruction_bytes now_ms).1 = .ok pkts) :
    ∀ (i : Nat) (hi : i < pkts.length),
      fromBeBytes ((pkts.get ⟨i, hi⟩).take 8) % 2 ^ 63
        = (c.crypto.send_seq + i) % 2 ^ 63 := by
  intro i hi
  simp only [MoshClient.encrypt_and_fragment] at h
  rcases hef : encryptFragments aeadEnc c.crypto (now_ms % 2 ^ 16)
      c.last_remote_timestamp
      ((c.fragmenter.make_fragments instruction_bytes).1)
    with ⟨res, crypto'⟩
  rw [hef] at h
  cases res with
  | error e => simp at h
  | ok pkts2 =>
    simp only [Except.ok.injEq] at h
    subst h
    exact encryptFragments_dseq aeadEnc (now_ms % 2 ^ 16)
      c.last_remote_timestamp _ c.crypto pkts2 (by rw [hef]) i hi

/-- C2 witness. -/
theorem C2_dseq_is_crypto_counter_witness :
    ((MoshClient.new none).encrypt_and_fragment sealStub [9] 0).1
        = .ok pktsC2w ∧
    fromBeBytes ((pktsC2w.get ⟨0, by decide⟩).take 8) % 2 ^ 63
      = ((MoshClient.new none).crypto.send_seq + 0) % 2 ^ 63 :=
  ⟨by rfl,
   C2_dseq_is_crypto_counter sealStub (MoshClient.new none) [9] 0 pktsC2w
     (by rfl) 0 (by decide)⟩


/-! ## Lemmas: chunking -/

theorem chunksGo_nil (mtu fuel : Nat) : chunksGo mtu fuel [] = [] := by
  cases fuel <;> rfl

theorem chunksGo_fuel (mtu : Nat) (hmtu : 0 < mtu) :
    ∀ (fuel : Nat) (l : Bytes) (fuel' : Nat), l.length ≤ fuel →
      l.length ≤ fuel' → chunksGo mtu fuel l = chunksGo mtu fuel' l := by
  intro fuel
  induction fuel with
  | zero =>
    intro l fuel' h1 _
    have : l = [] := List.length_eq_zero.mp (by omega)
    subst this
    rw [chunksGo_nil, chunksGo_nil]
  | succ fuel ih =>
    intro l fuel' h1 h2
    cases l with
    | nil => rw [chunksGo_nil, chunksGo_nil]
    | cons b bs =>
      cases fuel' with
      | zero => simp at h2
      | succ fuel'' =>
        show (b :: bs).take mtu :: chunksGo mtu fuel ((b :: bs).drop mtu)
            = (b :: bs).take mtu :: chunksGo mtu fuel'' ((b :: bs).drop mtu)
        congr 1
        apply ih
        · simp only [List.length_drop, List.length_cons]
          simp only [List.length_cons] at h1
          omega
        · simp only [List.length_drop, List.length_cons]
          simp only [List.length_cons] at h2
          omega

theorem chunksOf_cons (mtu : Nat) (hmtu : 0 < mtu) (l : Bytes) (hl : l ≠ []) :
    chunksOf mtu l = l.take mtu :: chunksOf mtu (l.drop mtu) := by
  cases l with
  | nil => exact absurd rfl hl
  | cons b bs =>
    show chunksGo mtu (b :: bs).length (b :: bs) = _
    rw [show (b :: bs).length = bs.length + 1 from rfl]
    show (b :: bs).take mtu :: chunksGo mtu bs.length ((b :: bs).drop mtu) = _
    congr 1
    apply chunksGo_fuel mtu hmtu
    · simp only [List.length_drop]
      simp
      omega
    · exact le_rfl

theorem chunksOf_flatten (mtu : Nat) (hmtu : 0 < mtu) (l : Bytes) :
    (chunksOf mtu l).flatten = l := by
  suffices H : ∀ (n : Nat) (l : Bytes), l.length ≤ n →
      (chunksOf mtu l).flatten = l from H l.length l le_rfl
  intro n
  induction n with
  | zero =>
    intro l hl
    have : l = [] := List.length_eq_zero.mp (by omega)
    subst this
    rfl
  | succ n ih =>
    intro l hl
    by_cases hnil : l = []
    · subst hnil
      rfl
    · rw [chunksOf_cons mtu hmtu l hnil]
      rw [List.flatten_cons]
      rw [ih (l.drop mtu) (by
        simp only [List.length_drop]
        have : 0 < l.length := List.length_pos.mpr hnil
        omega)]
      exact List.take_append_drop mtu l

theorem chunksOf_replicate (mtu q r : Nat) (hmtu : 0 < mtu) (hr1 : 0 < r)
    (hr2 : r ≤ mtu) :
    chunksOf mtu (List.replicate (q * mtu + r) (0 : Nat))
      = List.replicate q (List.replicate mtu 0) ++ [List.replicate r 0] := by
  induction q with
  | zero =>
    rw [chunksOf_cons mtu hmtu _ (by simp; omega)]
    rw [List.take_replicate, List.drop_replicate]
    have h1 : min mtu (0 * mtu + r) = r := by omega
    have h2 : 0 * mtu + r - mtu = 0 := by omega
    rw [h1, h2]
    rfl
  | succ q ih =>
    rw [chunksOf_cons mtu hmtu _ (by simp; omega)]
    rw [List.take_replicate, List.drop_replicate]
    have h1 : min mtu ((q + 1) * mtu + r) = mtu := by
      have : mtu ≤ (q + 1) * mtu + r := by nlinarith
      omega
    have h2 : (q + 1) * mtu + r - mtu = q * mtu + r := by
      have : (q + 1) * mtu = q * mtu + mtu := by ring
      omega
    rw [h1, h2, ih]
    rfl

theorem range_map_getD (l : List Bytes) :
    (List.range l.length).map (fun j => l.getD j []) = l := by
  apply List.ext_getElem
  · simp
  · intro i h1 h2
    simp only [List.getElem_map, List.getElem_range]
    exact List.getD_eq_getElem l [] h2


/-! ## Lemmas: assembly state as a function of the fed fragments -/

theorem FragmentAssembly.extEq (a b : FragmentAssembly)
    (h1 : a.current_id = b.current_id) (h2 : ∀ j, a.arrived j = b.arrived j)
    (h3 : a.final_fragment_num = b.final_fragment_num) : a = b := by
  obtain ⟨c1, ar1, f1⟩ := a
  obtain ⟨c2, ar2, f2⟩ := b
  simp only at h1 h2 h3
  subst h1
  subst h3
  have : ar1 = ar2 := funext h2
  subst this
  rfl

theorem new_assemblyState (id : Nat) :
    FragmentAssembly.new = assemblyState id [] := by
  apply FragmentAssembly.extEq <;> simp [FragmentAssembly.new, assemblyState,
    lastArrival, lastFinalNum]

theorem lastArrival_append (q : List Fragment) (f : Fragment) (j : Nat) :
    lastArrival (q ++ [f]) j
      = if f.fragment_num = j then some f else lastArrival q j := by
  unfold lastArrival
  rw [List.reverse_append]
  show List.find? _ (f :: q.reverse) = _
  rw [List.find?_cons]
  split
  · next h =>
    rw [if_pos (by simpa using h)]
  · next h =>
    rw [if_neg (by simpa using h)]

theorem lastFinalNum_append (q : List Fragment) (f : Fragment) :
    lastFinalNum (q ++ [f])
      = if f.is_final then some f.fragment_num else lastFinalNum q := by
  unfold lastFinalNum
  rw [List.reverse_append]
  show (List.find? _ (f :: q.reverse)).map _ = _
  rw [List.find?_cons]
  split
  · next h =>
    rw [if_pos (by simpa using h)]
    rfl
  · next h =>
    rw [if_neg (by simpa using h)]

theorem lastArrival_some (q : List Fragment) (j : Nat) (f : Fragment)
    (h : lastArrival q j = some f) : f ∈ q ∧ f.fragment_num = j := by
  unfold lastArrival at h
  constructor
  · exact List.mem_reverse.mp (List.mem_of_find?_eq_some h)
  · have := List.find?_some h
    simpa using this

theorem lastArrival_isSome (q : List Fragment) (j : Nat) (f : Fragment)
    (hf : f ∈ q) (hnum : f.fragment_num = j) : (lastArrival q j).isSome := by
  unfold lastArrival
  rw [List.find?_isSome]
  exact ⟨f, List.mem_reverse.mpr hf, by simp [hnum]⟩

theorem lastFinalNum_some (q : List Fragment) (n : Nat)
    (h : lastFinalNum q = some n) :
    ∃ f ∈ q, f.is_final = true ∧ f.fragment_num = n := by
  unfold lastFinalNum at h
  cases hf : List.find? (fun f => f.is_final) q.reverse with
  | none => rw [hf] at h; simp at h
  | some f =>
    rw [hf] at h
    simp only [Option.map_some', Option.some.injEq] at h
    exact ⟨f, List.mem_reverse.mp (List.mem_of_find?_eq_some hf),
      List.find?_some hf, h⟩

theorem lastFinalNum_isSome (q : List Fragment) (f : Fragment)
    (hf : f ∈ q) (hfin : f.is_final = true) : (lastFinalNum q).isSome := by
  unfold lastFinalNum
  have h1 : (List.find? (fun f => f.is_final) q.reverse).isSome :=
    List.find?_isSome.mpr ⟨f, List.mem_reverse.mpr hf, hfin⟩
  obtain ⟨g, hg⟩ := Option.isSome_iff_exists.mp h1
  rw [hg]
  rfl

theorem add_fragment_fst (a : FragmentAssembly) (f : Fragment) :
    (a.add_fragment f).1 = (a.add_fragment f).2.try_assemble := rfl

theorem add_fragment_none (ar : Nat → Option Fragment) (fin : Option Nat)
    (f : Fragment) :
    ((⟨none, ar, fin⟩ : FragmentAssembly).add_fragment f).2 =
      ⟨some f.instruction_id,
       fun j => if j = f.fragment_num then some f else none,
       if f.is_final then some f.fragment_num else none⟩ := by
  unfold FragmentAssembly.add_fragment FragmentAssembly.reset_if_new_id
  cases hfin : f.is_final <;> simp [hfin]

theorem add_fragment_same_id (c : Option Nat) (ar : Nat → Option Fragment)
    (fin : Option Nat) (f : Fragment) (h : c = some f.instruction_id) :
    ((⟨c, ar, fin⟩ : FragmentAssembly).add_fragment f).2 =
      ⟨c, fun j => if j = f.fragment_num then some f else ar j,
       if f.is_final then some f.fragment_num else fin⟩ := by
  subst h
  unfold FragmentAssembly.add_fragment FragmentAssembly.reset_if_new_id
  cases hfin : f.is_final <;> simp [hfin]

theorem add_fragment_state (id : Nat) (q : List Fragment) (f : Fragment)
    (hf : f.instruction_id = id) :
    ((assemblyState id q).add_fragment f).2 = assemblyState id (q ++ [f]) := by
  subst hf
  cases q with
  | nil =>
    rw [show assemblyState f.instruction_id []
        = (⟨none, fun j => lastArrival [] j, lastFinalNum []⟩ : FragmentAssembly)
      from rfl]
    rw [add_fragment_none]
    apply FragmentAssembly.extEq
    · simp [assemblyState]
    · intro j
      show (if j = f.fragment_num then some f else none)
          = (assemblyState f.instruction_id ([] ++ [f])).arrived j
      show (if j = f.fragment_num then some f else none)
          = lastArrival ([] ++ [f]) j
      rw [lastArrival_append]
      by_cases h : f.fragment_num = j
      · rw [if_pos h.symm, if_pos h]
      · rw [if_neg (fun hh => h hh.symm), if_neg h]
        rfl
    · show (if f.is_final then some f.fragment_num else none)
          = lastFinalNum ([] ++ [f])
      rw [lastFinalNum_append]
      rfl
  | cons g q' =>
    rw [show assemblyState f.instruction_id (g :: q')
        = (⟨some f.instruction_id, fun j => lastArrival (g :: q') j,
            lastFinalNum (g :: q')⟩ : FragmentAssembly) from rfl]
    rw [add_fragment_same_id _ _ _ _ rfl]
    apply FragmentAssembly.extEq
    · simp [assemblyState]
    · intro j
      show (if j = f.fragment_num then some f else lastArrival (g :: q') j)
          = lastArrival ((g :: q') ++ [f]) j
      rw [lastArrival_append]
      by_cases h : f.fragment_num = j
      · rw [if_pos h.symm, if_pos h]
      · rw [if_neg (fun hh => h hh.symm), if_neg h]
    · show (if f.is_final then some f.fragment_num else lastFinalNum (g :: q'))
          = lastFinalNum ((g :: q') ++ [f])
      rw [lastFinalNum_append]


theorem feed_all_length (a : FragmentAssembly) :
    ∀ l : List Fragment, (a.feed_all l).1.length = l.length := by
  intro l
  induction l generalizing a with
  | nil => rfl
  | cons f rest ih =>
    show ((a.add_fragment f).1 :: ((a.add_fragment f).2.feed_all rest).1).length
        = rest.length + 1
    simp [ih]

theorem feed_all_state (id : Nat) :
    ∀ (l q : List Fragment), (∀ f ∈ l, f.instruction_id = id) →
      ((assemblyState id q).feed_all l).2 = assemblyState id (q ++ l) := by
  intro l
  induction l with
  | nil =>
    intro q _
    simp [FragmentAssembly.feed_all]
  | cons f rest ih =>
    intro q hid
    show (((assemblyState id q).add_fragment f).2.feed_all rest).2 = _
    rw [add_fragment_state id q f (hid f (by simp))]
    rw [ih (q ++ [f]) (fun g hg => hid g (by simp [hg]))]
    simp

theorem getLast?_cons_of_ne {α : Type} (x : α) (xs : List α) (h : xs ≠ []) :
    (x :: xs).getLast? = xs.getLast? := by
  cases xs with
  | nil => exact absurd rfl h
  | cons y ys => exact List.getLast?_cons_cons

theorem feed_all_last (id : Nat) :
    ∀ (l q : List Fragment), l ≠ [] → (∀ f ∈ l, f.instruction_id = id) →
      ((assemblyState id q).feed_all l).1.getLast?
        = some ((assemblyState id (q ++ l)).try_assemble) := by
  intro l
  induction l with
  | nil => intro q h _; exact absurd rfl h
  | cons f rest ih =>
    intro q _ hid
    show (((assemblyState id q).add_fragment f).1
        :: (((assemblyState id q).add_fragment f).2.feed_all rest).1).getLast? = _
    rw [add_fragment_fst, add_fragment_state id q f (hid f (by simp))]
    by_cases hrest : rest = []
    · subst hrest
      show (((assemblyState id (q ++ [f])).try_assemble) :: []).getLast? = _
      simp
    · have hne : ((assemblyState id (q ++ [f])).feed_all rest).1 ≠ [] := by
        intro hh
        have hlen := feed_all_length (assemblyState id (q ++ [f])) rest
        rw [hh] at hlen
        exact hrest (List.length_eq_zero.mp hlen.symm)
      rw [getLast?_cons_of_ne _ _ hne]
      rw [ih (q ++ [f]) hrest (fun x hx => hid x (by simp [hx]))]
      rw [List.append_assoc]
      rfl

theorem getLast?_append_singleton {α : Type} (l : List α) (a : α) :
    (l ++ [a]).getLast? = some a := by
  induction l with
  | nil => rfl
  | cons x xs ih =>
    rw [List.cons_append, getLast?_cons_of_ne x _ (by simp), ih]

theorem make_fragments_empty (fr : Fragmenter) (m : Bytes) (hm : m.isEmpty = true) :
    (fr.make_fragments m).1 = [⟨fr.next_instruction_id, 0, true, []⟩] := by
  unfold Fragmenter.make_fragments
  rw [hm]
  rfl

theorem make_fragments_nonempty (fr : Fragmenter) (m : Bytes)
    (hm : m.isEmpty = false) :
    (fr.make_fragments m).1
      = (chunksOf fr.app_payload_mtu m).enum.map
          (fun ic => (⟨fr.next_instruction_id, ic.1 % 2 ^ 16,
            decide (ic.1 = (chunksOf fr.app_payload_mtu m).length - 1),
            ic.2⟩ : Fragment)) := by
  unfold Fragmenter.make_fragments
  rw [hm]
  rfl

theorem goodFragList_mem (id : Nat) (C : List Bytes) (F : List Fragment)
    (hg : goodFragList id C F) (f : Fragment) (hf : f ∈ F) :
    f.fragment_num < C.length ∧
      f = ⟨id, f.fragment_num, decide (f.fragment_num = C.length - 1),
           C.getD f.fragment_num []⟩ := by
  obtain ⟨hlen, hget⟩ := hg
  obtain ⟨⟨i, hi⟩, rfl⟩ := List.mem_iff_get.mp hf
  rw [hget i hi]
  exact ⟨show i < C.length by omega, rfl⟩

theorem goodFragList_get_mem (id : Nat) (C : List Bytes) (F : List Fragment)
    (hg : goodFragList id C F) (j : Nat) (hj : j < C.length) :
    (⟨id, j, decide (j = C.length - 1), C.getD j []⟩ : Fragment) ∈ F := by
  obtain ⟨hlen, hget⟩ := hg
  have hj2 : j < F.length := by omega
  have h := hget j hj2
  rw [← h]
  exact F.get_mem j hj2

theorem goodFragList_nodup (id : Nat) (C : List Bytes) (F : List Fragment)
    (hg : goodFragList id C F) : F.Nodup := by
  obtain ⟨hlen, hget⟩ := hg
  rw [List.nodup_iff_injective_get]
  intro i j hij
  obtain ⟨i, hi⟩ := i
  obtain ⟨j, hj⟩ := j
  rw [hget i hi, hget j hj] at hij
  have hnum : i = j := congrArg Fragment.fragment_num hij
  exact Fin.ext hnum

theorem make_fragments_good (fr : Fragmenter) (m : Bytes)
    (hcount : (fragChunks fr.app_payload_mtu m).length ≤ 2 ^ 16) :
    goodFragList fr.next_instruction_id (fragChunks fr.app_payload_mtu m)
      (fr.make_fragments m).1 := by
  cases hm : m.isEmpty with
  | true =>
    rw [make_fragments_empty fr m hm]
    have hcc : fragChunks fr.app_payload_mtu m = [[]] := by
      unfold fragChunks
      rw [hm]
      rfl
    rw [hcc]
    refine ⟨rfl, ?_⟩
    intro i hi
    have h0 : i = 0 := by
      simp only [List.length_cons, List.length_nil] at hi
      omega
    subst h0
    rfl
  | false =>
    rw [make_fragments_nonempty fr m hm]
    have hcc : fragChunks fr.app_payload_mtu m = chunksOf fr.app_payload_mtu m := by
      unfold fragChunks
      rw [hm]
      rfl
    rw [hcc] at hcount ⊢
    refine ⟨by simp, ?_⟩
    intro i hi
    have hi2 : i < (chunksOf fr.app_payload_mtu m).length := by
      simpa using hi
    simp only [List.get_eq_getElem, List.getElem_map, List.getElem_enum]
    rw [Nat.mod_eq_of_lt (by omega), List.getD_eq_getElem _ _ hi2]

theorem try_assemble_complete (id : Nat) (C : List Bytes) (F Q : List Fragment)
    (hg : goodFragList id C F) (hC : C ≠ [])
    (hsub : ∀ f ∈ Q, f ∈ F) (hall : ∀ f ∈ F, f ∈ Q) :
    (assemblyState id Q).try_assemble = some C.flatten := by
  have hn : 0 < C.length := List.length_pos.mpr hC
  have harr : ∀ j, j < C.length → lastArrival Q j
      = some ⟨id, j, decide (j = C.length - 1), C.getD j []⟩ := by
    intro j hj
    have hmem := hall _ (goodFragList_get_mem id C F hg j hj)
    have hsome : (lastArrival Q j).isSome := lastArrival_isSome Q j _ hmem rfl
    obtain ⟨f, hf⟩ := Option.isSome_iff_exists.mp hsome
    obtain ⟨hfQ, hfnum⟩ := lastArrival_some Q j f hf
    obtain ⟨hlt, hfeq⟩ := goodFragList_mem id C F hg f (hsub f hfQ)
    rw [hf, hfeq, hfnum]
  have hfin : lastFinalNum Q = some (C.length - 1) := by
    have hfinmem := hall _ (goodFragList_get_mem id C F hg (C.length - 1) (by omega))
    have hsome : (lastFinalNum Q).isSome :=
      lastFinalNum_isSome Q _ hfinmem (by simp)
    obtain ⟨m, hm⟩ := Option.isSome_iff_exists.mp hsome
    obtain ⟨f, hfQ, hffin, hfnum⟩ := lastFinalNum_some Q m hm
    obtain ⟨hlt, hfeq⟩ := goodFragList_mem id C F hg f (hsub f hfQ)
    have hd : f.is_final = decide (f.fragment_num = C.length - 1) :=
      congrArg Fragment.is_final hfeq
    rw [hffin] at hd
    have hnum : f.fragment_num = C.length - 1 := of_decide_eq_true hd.symm
    rw [hm, ← hfnum, hnum]
  show (match lastFinalNum Q with
    | none => none
    | some final_num =>
      if (List.range (final_num + 1)).all (fun n => (lastArrival Q n).isSome) then
        some ((List.range (final_num + 1)).map
          (fun n => match lastArrival Q n with
            | some f => f.payload
            | none => [])).flatten
      else none) = some C.flatten
  rw [hfin]
  show (if (List.range (C.length - 1 + 1)).all (fun n => (lastArrival Q n).isSome) then
      some ((List.range (C.length - 1 + 1)).map
        (fun n => match lastArrival Q n with
          | some f => f.payload
          | none => [])).flatten
    else none) = some C.flatten
  have hrange : C.length - 1 + 1 = C.length := by omega
  rw [hrange]
  have hall2 : (List.range C.length).all (fun n => (lastArrival Q n).isSome) = true := by
    rw [List.all_eq_true]
    intro j hj
    rw [harr j (List.mem_range.mp hj)]
    rfl
  rw [if_pos hall2]
  have hmap : (List.range C.length).map
      (fun n => match lastArrival Q n with
        | some f => f.payload
        | none => [])
      = (List.range C.length).map (fun j => C.getD j []) := by
    apply List.map_congr_left
    intro j hj
    rw [harr j (List.mem_range.mp hj)]
  rw [hmap, range_map_getD]

theorem try_assemble_incomplete (id : Nat) (C : List Bytes) (F Q : List Fragment)
    (hg : goodFragList id C F) (hsub : ∀ f ∈ Q, f ∈ F)
    (g : Fragment) (hgF : g ∈ F) (hgQ : g ∉ Q) :
    (assemblyState id Q).try_assemble = none := by
  obtain ⟨hglt, hgeq⟩ := goodFragList_mem id C F hg g hgF
  have harr : lastArrival Q g.fragment_num = none := by
    cases hla : lastArrival Q g.fragment_num with
    | none => rfl
    | some f =>
      obtain ⟨hfQ, hfnum⟩ := lastArrival_some Q _ f hla
      obtain ⟨hflt, hfeq⟩ := goodFragList_mem id C F hg f (hsub f hfQ)
      have hfg : f = g := by rw [hfeq, hgeq, hfnum]
      rw [hfg] at hfQ
      exact absurd hfQ hgQ
  cases hfin : lastFinalNum Q with
  | none =>
    show (match lastFinalNum Q with
      | none => none
      | some final_num =>
        if (List.range (final_num + 1)).all (fun n => (lastArrival Q n).isSome) then
          some ((List.range (final_num + 1)).map
            (fun n => match lastArrival Q n with
              | some f => f.payload
              | none => [])).flatten
        else none) = none
    rw [hfin]
  | some m =>
    obtain ⟨f, hfQ, hffin, hfnum⟩ := lastFinalNum_some Q m hfin
    obtain ⟨hflt, hfeq⟩ := goodFragList_mem id C F hg f (hsub f hfQ)
    have hd : f.is_final = decide (f.fragment_num = C.length - 1) :=
      congrArg Fragment.is_final hfeq
    rw [hffin] at hd
    have hnum : f.fragment_num = C.length - 1 := of_decide_eq_true hd.symm
    have hm : m = C.length - 1 := by omega
    have hmem : g.fragment_num ∈ List.range (m + 1) := by
      rw [List.mem_range]
      omega
    have hfalse : ¬ ((List.range (m + 1)).all
        (fun n => (lastArrival Q n).isSome) = true) := by
      rw [List.all_eq_true]
      intro hforall
      have hh := hforall g.fragment_num hmem
      rw [harr] at hh
      simp at hh
    show (match lastFinalNum Q with
      | none => none
      | some final_num =>
        if (List.range (final_num + 1)).all (fun n => (lastArrival Q n).isSome) then
          some ((List.range (final_num + 1)).map
            (fun n => match lastArrival Q n with
              | some f => f.payload
              | none => [])).flatten
        else none) = none
    rw [hfin]
    show (if (List.range (m + 1)).all (fun n => (lastArrival Q n).isSome) then
        some ((List.range (m + 1)).map
          (fun n => match lastArrival Q n with
            | some f => f.payload
            | none => [])).flatten
      else none) = none
    rw [if_neg hfalse]

theorem feed_perm (id : Nat) (C : List Bytes) (F : List Fragment)
    (hg : goodFragList id C F) (hC : C ≠ []) :
    ∀ (P Q : List Fragment), (Q ++ P).Perm F → P ≠ [] →
      ((assemblyState id Q).feed_all P).1
        = List.replicate (P.length - 1) none ++ [some C.flatten] := by
  intro P
  induction P with
  | nil =>
    intro Q _ hne
    exact absurd rfl hne
  | cons f rest ih =>
    intro Q hperm _
    have hidf : f.instruction_id = id := by
      have hfF : f ∈ F := hperm.mem_iff.mp (by simp)
      obtain ⟨_, hfeq⟩ := goodFragList_mem id C F hg f hfF
      rw [hfeq]
    show (((assemblyState id Q).add_fragment f).1
        :: (((assemblyState id Q).add_fragment f).2.feed_all rest).1) = _
    rw [add_fragment_fst, add_fragment_state id Q f hidf]
    have hsub1 : ∀ x ∈ Q ++ [f], x ∈ F := by
      intro x hx
      apply hperm.mem_iff.mp
      rcases List.mem_append.mp hx with h | h
      · exact List.mem_append.mpr (Or.inl h)
      · have hxf : x = f := by simpa using h
        exact List.mem_append.mpr (Or.inr (by simp [hxf]))
    cases rest with
    | nil =>
      have hcomp : (assemblyState id (Q ++ [f])).try_assemble = some C.flatten := by
        apply try_assemble_complete id C F (Q ++ [f]) hg hC hsub1
        intro x hx
        exact hperm.mem_iff.mpr hx
      show [(assemblyState id (Q ++ [f])).try_assemble] = _
      rw [hcomp]
      rfl
    | cons g rest2 =>
      have hnodup : (Q ++ (f :: g :: rest2)).Nodup :=
        hperm.nodup_iff.mpr (goodFragList_nodup id C F hg)
      have hgF : g ∈ F := hperm.mem_iff.mp (by simp)
      have hgnotin : g ∉ Q ++ [f] := by
        intro hin
        rw [List.nodup_append] at hnodup
        obtain ⟨hQnd, hcons, hdisj⟩ := hnodup
        rcases List.mem_append.mp hin with hinQ | hinf
        · exact hdisj hinQ (by simp)
        · have hgf : g = f := by simpa using hinf
          have hfd := List.nodup_cons.mp hcons
          exact hfd.1 (by simp [hgf.symm])
      have hnone : (assemblyState id (Q ++ [f])).try_assemble = none :=
        try_assemble_incomplete id C F (Q ++ [f]) hg hsub1 g hgF hgnotin
      rw [hnone]
      rw [ih (Q ++ [f]) (by rw [List.append_assoc]; exact hperm) (by simp)]
      simp [List.replicate_succ]

/-- C3 (amended): for every message `m`, MTU `μ ≥ 64` and permutation `P`
of the fragment list `make_fragments` cuts `m` into, provided `m` yields
at most `2^16` fragments (so the `u16` fragment indices do not wrap),
feeding `P` into a fresh `FragmentAssembly` returns `none` on every
insertion but the last and `some m` on the last insertion.  The original
claim, with no bound on the fragment count, is refuted by
`C3_u16_wrap_counterexample`. -/
theorem C3_fragment_reassembly (m : Bytes) (μ : Nat) (P : List Fragment)
    (hμ : 64 ≤ μ)
    (hcount : (fragChunks μ m).length ≤ 2 ^ 16)
    (hP : P.Perm ((Fragmenter.new μ).make_fragments m).1) :
    (FragmentAssembly.new.feed_all P).1
      = List.replicate (P.length - 1) none ++ [some m] := by
  have hmtu : 0 < μ := by omega
  have hg : goodFragList 1 (fragChunks μ m) ((Fragmenter.new μ).make_fragments m).1 :=
    make_fragments_good (Fragmenter.new μ) m hcount
  have hC : fragChunks μ m ≠ [] := by
    by_cases hm : m = []
    · subst hm
      intro h
      rw [show fragChunks μ [] = [[]] from rfl] at h
      exact List.cons_ne_nil _ _ h
    · have hIsE : m.isEmpty = false := by
        cases m with
        | nil => exact absurd rfl hm
        | cons b bs => rfl
      unfold fragChunks
      rw [hIsE, if_neg (by simp)]
      rw [chunksOf_cons μ hmtu m hm]
      simp
  have hflat : (fragChunks μ m).flatten = m := by
    by_cases hm : m = []
    · subst hm
      rfl
    · have hIsE : m.isEmpty = false := by
        cases m with
        | nil => exact absurd rfl hm
        | cons b bs => rfl
      unfold fragChunks
      rw [hIsE, if_neg (by simp)]
      exact chunksOf_flatten μ hmtu m
  have hPne : P ≠ [] := by
    intro h
    have hlen := hP.length_eq
    rw [h] at hlen
    simp only [List.length_nil] at hlen
    obtain ⟨hlen2, _⟩ := hg
    have hCpos : 0 < (fragChunks μ m).length := List.length_pos.mpr hC
    omega
  have hmain := feed_perm 1 (fragChunks μ m)
    ((Fragmenter.new μ).make_fragments m).1 hg hC P []
    (by rw [List.nil_append]; exact hP) hPne
  rw [← new_assemblyState 1] at hmain
  rw [hflat] at hmain
  exact hmain

/-- C3 witness: the 65-byte message `replicate 65 7` at MTU 64 splits
into two fragments; fed in reversed order, the outputs are `none` then
`some` of the whole message. -/
theorem C3_fragment_reassembly_witness :
    (FragmentAssembly.new.feed_all fragsC3.reverse).1
      = List.replicate (fragsC3.reverse.length - 1) none ++ [some msgC3] :=
  C3_fragment_reassembly msgC3 64 fragsC3.reverse (by decide) (by decide)
    (List.reverse_perm fragsC3)

theorem try_assemble_single (id : Nat) (fs : List Fragment) (p : Bytes)
    (hfin : lastFinalNum fs = some 0)
    (harr : lastArrival fs 0 = some ⟨id, 0, true, p⟩) :
    (assemblyState id fs).try_assemble = some p := by
  show (match lastFinalNum fs with
    | none => none
    | some final_num =>
      if (List.range (final_num + 1)).all (fun n => (lastArrival fs n).isSome) then
        some ((List.range (final_num + 1)).map
          (fun n => match lastArrival fs n with
            | some f => f.payload
            | none => [])).flatten
      else none) = some p
  rw [hfin]
  show (if (List.range 1).all (fun n => (lastArrival fs n).isSome) then
      some ((List.range 1).map
        (fun n => match lastArrival fs n with
          | some f => f.payload
          | none => [])).flatten
    else none) = some p
  have hcond : (List.range 1).all (fun n => (lastArrival fs n).isSome) = true := by
    show ((lastArrival fs 0).isSome && true) = true
    rw [harr]
    rfl
  rw [if_pos hcond]
  show some (((match lastArrival fs 0 with
    | some f => f.payload
    | none => ([] : Bytes)) :: []).flatten) = some p
  rw [harr]
  show some (p ++ []) = some p
  rw [List.append_nil]

/-- C3 counterexample: `hugeMsg` (`2^16 · 64 + 1` bytes) at MTU 64 makes
`2^16 + 1` fragments, so the last fragment's `u16` index wraps to `0` and
overwrites fragment 0; even fed in the original order (a permutation of
itself, with MTU 64 ≥ 64), the outputs are not `none … none, some hugeMsg`:
the final `try_assemble` returns `some [0]` instead. -/
theorem C3_u16_wrap_counterexample :
    hugeFrags.Perm hugeFrags ∧ 64 ≤ 64 ∧
    (FragmentAssembly.new.feed_all hugeFrags).1
      ≠ List.replicate (hugeFrags.length - 1) none ++ [some hugeMsg] := by
  refine ⟨List.Perm.refl _, le_refl _, ?_⟩
  intro heq
  have hIsE : hugeMsg.isEmpty = false := rfl
  have hchunks : chunksOf 64 hugeMsg
      = List.replicate (2 ^ 16) (List.replicate 64 0) ++ [List.replicate 1 0] :=
    chunksOf_replicate 64 (2 ^ 16) 1 (by norm_num) (by norm_num) (by norm_num)
  have hF := make_fragments_nonempty (Fragmenter.new 64) hugeMsg hIsE
  have hmtu64 : (Fragmenter.new 64).app_payload_mtu = 64 := rfl
  have hid1 : (Fragmenter.new 64).next_instruction_id = 1 := rfl
  rw [hmtu64, hid1] at hF
  have hclen : (chunksOf 64 hugeMsg).length = 2 ^ 16 + 1 := by
    rw [hchunks, List.length_append, List.length_replicate, List.length_cons,
      List.length_nil]
  have hsplit : hugeFrags
      = (List.replicate (2 ^ 16) (List.replicate 64 (0 : Nat))).enum.map
          (fun ic => (⟨1, ic.1 % 2 ^ 16, decide (ic.1 = 2 ^ 16), ic.2⟩ : Fragment))
        ++ [⟨1, 0, true, List.replicate 1 0⟩] := by
    unfold hugeFrags
    rw [hF, hclen, hchunks]
    have h1 : 2 ^ 16 + 1 - 1 = 2 ^ 16 := by norm_num
    rw [h1]
    rw [List.enum_append, List.map_append, List.length_replicate]
    congr 1
  have hid : ∀ f ∈ hugeFrags, f.instruction_id = 1 := by
    intro f hf
    rw [hsplit] at hf
    rcases List.mem_append.mp hf with h | h
    · obtain ⟨ic, _, rfl⟩ := List.mem_map.mp h
      rfl
    · have hfe : f = ⟨1, 0, true, List.replicate 1 0⟩ := by simpa using h
      rw [hfe]
  have hlenF : hugeFrags.length = 2 ^ 16 + 1 := by
    rw [hsplit, List.length_append, List.length_map, List.enum_length,
      List.length_replicate, List.length_cons, List.length_nil]
  have hFne : hugeFrags ≠ [] := by
    intro h
    rw [h, List.length_nil] at hlenF
    exact absurd hlenF (by norm_num)
  have hfin : lastFinalNum hugeFrags = some 0 := by
    rw [hsplit, lastFinalNum_append]
    rfl
  have harr0 : lastArrival hugeFrags 0 = some ⟨1, 0, true, List.replicate 1 0⟩ := by
    rw [hsplit, lastArrival_append]
    rfl
  have hassemble : (assemblyState 1 hugeFrags).try_assemble
      = some (List.replicate 1 0) := try_assemble_single 1 hugeFrags _ hfin harr0
  have hL : (FragmentAssembly.new.feed_all hugeFrags).1.getLast?
      = some ((assemblyState 1 hugeFrags).try_assemble) := by
    rw [new_assemblyState 1]
    have hh := feed_all_last 1 hugeFrags [] hFne hid
    rwa [List.nil_append] at hh
  rw [heq, getLast?_append_singleton, hassemble] at hL
  have hbad : hugeMsg = List.replicate 1 0 := Option.some.inj (Option.some.inj hL)
  have hlen2 := congrArg List.length hbad
  simp only [hugeMsg, List.length_replicate] at hlen2
  norm_num at hlen2
